import Mathlib

set_option maxRecDepth 40000

/-!
# Verification of `shardmap` (secure-for-ai/shardmap)

Shallow embedding of the repository's Go source into Lean 4.

* `map.go` — the concurrent sharded map (`Map`): `choose`, `Set`, `Get`,
  `Delete`, `SetAccept`, `DeleteAccept`, `Len`.
* the Robin Hood shard table (`mapShard`): `newShard`, `resize`,
  `SetWithHash`/`set`, `GetWithHash`, `DeleteWithHash`/`remove`, `Len`.

Machine integers (`uint64`) are modelled as `Nat` with explicit `% 2^64`
(resp. masking) exactly where the Go code can wrap.  Loops that the Go code
writes as unbounded `for` loops are modelled with an explicit fuel parameter;
an operation that returns `none` for every fuel corresponds to a Go execution
that never terminates.  A state is reachable exactly when some fuel makes each
operation of the trace return `some`.

Go's generic zero value (`var prev V`) is modelled by `default` from
`Inhabited`.  Key equality `==` on a `comparable` Go type is modelled by
`DecidableEq`.
-/

namespace Shardmap

/-! ## Constants (source: rhh part of the repo)

```go
const (
  loadFactor  = 0.85
  dibBitSize  = 16
  hashBitSize = 64 - dibBitSize
  maxHash     = ^uint64(0) >> dibBitSize
  maxDIB      = ^uint64(0) >> hashBitSize
  hashMask    = ^maxDIB
)
```
`^x` on `uint64` is bitwise complement, i.e. `(2^64-1) ^^^ x`. -/

def dibBitSize : Nat := 16

def hashBitSize : Nat := 64 - dibBitSize

def maxHash : Nat := (2 ^ 64 - 1) >>> dibBitSize

def maxDIB : Nat := (2 ^ 64 - 1) >>> hashBitSize

def hashMask : Nat := (2 ^ 64 - 1) ^^^ maxDIB

/-- `loadFactor = 0.85` is an *untyped* Go constant.  At its use
`float64(n) * loadFactor` it is converted once to `float64`; the IEEE-754
double nearest to `0.85` is `7656119366529843 / 2^53` (the real `0.85 * 2^53`
is `7656119366529843.2`, which rounds to `7656119366529843`, an integer in
`[2^52, 2^53)`, so this is the exact stored significand).  All bucket-array
lengths in this program are powers of two below `2^63`; converting such a
length to `float64` is exact, multiplying an exact power of two by a `float64`
only shifts the exponent (the significand is unchanged, so the product is
again exact), and Go's `int(x)` truncates toward zero, i.e. takes the floor of
a non-negative value.  Hence for every bucket length `n` the program ever
uses, `int(float64(n) * loadFactor) = n * loadFactorNum / 2^53` (floor
division). -/
def loadFactorNum : Nat := 7656119366529843

/-- In `float64(n) * (1 - loadFactor)` the expression `1 - loadFactor` is a
constant expression of untyped constants: Go evaluates it with exact
(arbitrary-precision) arithmetic to the exact rational `0.15` and rounds it
*once*, at the conversion to `float64`.  The double nearest to `0.15` is
`5404319552844595 / 2^55` (the real `0.15 * 2^55` is `5404319552844595.2`,
which rounds to `5404319552844595`, an integer in `[2^52, 2^53)`).  Note this
is one ulp *below* the value a float64 subtraction `1 - float64(0.85)` would
give — the program never performs that subtraction. -/
def shrinkFactorNum : Nat := 5404319552844595

/-- `int(float64(n) * loadFactor)` for the power-of-two lengths `n` used by
the program (see `loadFactorNum`). -/
def growAtF (n : Nat) : Nat := n * loadFactorNum / 2 ^ 53

/-- `int(float64(n) * (1 - loadFactor))` for the power-of-two lengths `n` used
by the program (see `shrinkFactorNum`; scaling the exactly-represented
`double(0.15)` by a power of two is exact and `int` truncates). -/
def shrinkAtF (n : Nat) : Nat := n * shrinkFactorNum / 2 ^ 55

/-! ## Entry

```go
type entry[K comparable, V any] struct {
  hdib  uint64 // bitfield { hash:48 dib:16 }
  key   K
  value V
}
```
-/

structure Entry (K V : Type) where
  hdib : Nat
  key : K
  value : V

instance {K V : Type} [Inhabited K] [Inhabited V] : Inhabited (Entry K V) :=
  ⟨⟨0, default, default⟩⟩

/-- `func (e *entry[K, V]) dib() uint64 { return e.hdib & maxDIB }` -/
def Entry.dib {K V : Type} (e : Entry K V) : Nat := e.hdib &&& maxDIB

/-- `func (e *entry[K, V]) hash() uint64 { return e.hdib >> dibBitSize }` -/
def Entry.hash {K V : Type} (e : Entry K V) : Nat := e.hdib >>> dibBitSize

/-- `func (e *entry[K, V]) setDIB(dib uint64) { e.hdib = e.hdib&hashMask | dib&maxDIB }` -/
def Entry.setDIB {K V : Type} (e : Entry K V) (d : Nat) : Entry K V :=
  { e with hdib := e.hdib &&& hashMask ||| d &&& maxDIB }

/-- `func makeHDIB(hash, dib uint64) uint64 { return hash<<dibBitSize | dib&maxDIB }`;
the shift is a `uint64` shift, hence the `% 2^64`. -/
def makeHDIB (hash dib : Nat) : Nat :=
  (hash <<< dibBitSize) % 2 ^ 64 ||| dib &&& maxDIB

/-- `func makeHash(hash uint64) uint64 { return hash >> dibBitSize }` -/
def makeHash (hash : Nat) : Nat := hash >>> dibBitSize

/-! ## Shard table

```go
type mapShard[K comparable, V any] struct {
  cap      int
  length   int
  growAt   int
  shrinkAt int
  mask     uint64
  buckets  []entry[K, V]
}
```
`buckets` is a Go slice; we model it as a `List` and model the (always
in-bounds in the source) indexed read `m.buckets[i]` as `getD i default`,
and the indexed write as `List.set` (which is the identity out of bounds). -/

@[ext]
structure MapShard (K V : Type) where
  cap : Nat
  length : Nat
  growAt : Nat
  shrinkAt : Nat
  mask : Nat
  buckets : List (Entry K V)

instance {K V : Type} : Inhabited (MapShard K V) := ⟨⟨0, 0, 0, 0, 0, []⟩⟩

/-- `m.buckets[i]` (always in bounds in the source). -/
def bget {K V : Type} [Inhabited K] [Inhabited V]
    (l : List (Entry K V)) (i : Nat) : Entry K V :=
  l.getD i default

/-- The size loop of `newShard`:
```go
sz := 8
for sz < m.cap {
  sz *= 2
}
```
The loop always terminates (starting from 8, `sz` doubles, so after at most
`cap` iterations `sz ≥ 2^cap ≥ cap`); the first argument is a structural
bound on the iteration count, never reached from `sizeFor` below
(`sizeForGo_fuel_irrelevant` would be provable; all uses go through the
characterization lemmas proved later, which hold for the actual loop). -/
def sizeForGo (cap : Nat) : Nat → Nat → Nat
  | 0, sz => sz
  | fuel + 1, sz => if sz < cap then sizeForGo cap fuel (2 * sz) else sz

def sizeFor (cap : Nat) : Nat := sizeForGo cap cap 8

/-- `func newShard[K comparable, V any](cap int) *mapShard[K, V]`.
Freshly made Go slice entries are zero valued (`hdib = 0`), modelled by
`default`. -/
def newShard {K V : Type} [Inhabited K] [Inhabited V] (cap : Nat) : MapShard K V :=
  let sz := sizeFor cap
  { cap := cap
    length := 0
    growAt := growAtF sz
    shrinkAt := shrinkAtF sz
    mask := sz - 1
    buckets := List.replicate sz default }

/-- The `for` loop of `mapShard.set`, with explicit fuel:
```go
for {
  if m.buckets[i].dib() == 0 {
    m.buckets[i] = e
    m.length++
    return prev, false
  }
  if e.hash() == m.buckets[i].hash() && e.key == m.buckets[i].key {
    prev = m.buckets[i].value
    m.buckets[i].value = e.value
    return prev, true
  }
  if m.buckets[i].dib() < e.dib() {
    e, m.buckets[i] = m.buckets[i], e
  }
  i = (i + 1) & m.mask
  e.setDIB(e.dib() + 1)
}
```
-/
def setLoop {K V : Type} [DecidableEq K] [Inhabited K] [Inhabited V] :
    Nat → MapShard K V → Entry K V → Nat → Option (MapShard K V × V × Bool)
  | 0, _, _, _ => none
  | fuel + 1, m, e, i =>
    let b := bget m.buckets i
    if b.dib = 0 then
      some ({ m with buckets := m.buckets.set i e, length := m.length + 1 },
        default, false)
    else if e.hash = b.hash ∧ e.key = b.key then
      some ({ m with buckets := m.buckets.set i { b with value := e.value } },
        b.value, true)
    else
      let m' := if b.dib < e.dib then { m with buckets := m.buckets.set i e } else m
      let e' := if b.dib < e.dib then b else e
      setLoop fuel m' (e'.setDIB (e'.dib + 1)) ((i + 1) &&& m.mask)

/-- `func (m *mapShard[K, V]) set(hash uint64, key K, value V) (prev V, ok bool)`
(the part before the loop):
```go
e := entry[K, V]{hdib: makeHDIB(hash, 1), value: value, key: key}
i := e.hash() & m.mask
```
-/
def setF {K V : Type} [DecidableEq K] [Inhabited K] [Inhabited V]
    (fuel : Nat) (m : MapShard K V) (hash : Nat) (key : K) (value : V) :
    Option (MapShard K V × V × Bool) :=
  let e : Entry K V := ⟨makeHDIB hash 1, key, value⟩
  setLoop fuel m e (e.hash &&& m.mask)

/-- `func (m *mapShard[K, V]) resize(newCap int)`:
```go
nmap := newShard[K, V](newCap)
for i := 0; i < len(m.buckets); i++ {
  if m.buckets[i].dib() > 0 {
    nmap.set(m.buckets[i].hash(), m.buckets[i].key, m.buckets[i].value)
  }
}
cap := m.cap
*m = *nmap
m.cap = cap
```
-/
def resizeF {K V : Type} [DecidableEq K] [Inhabited K] [Inhabited V]
    (fuel : Nat) (m : MapShard K V) (newCap : Nat) : Option (MapShard K V) :=
  (m.buckets.foldlM
    (fun acc e =>
      if e.dib ≠ 0 then (setF fuel acc e.hash e.key e.value).map Prod.fst
      else pure acc)
    (newShard newCap)).map
    fun nm => { nm with cap := m.cap }

/-- `func (m *mapShard[K, V]) SetWithHash(hash uint64, key K, value V) (V, bool)`:
```go
if len(m.buckets) == 0 {
  *m = *newShard[K, V](0)
}
if m.length >= m.growAt {
  m.resize(len(m.buckets) * 2)
}
return m.set(hash, key, value)
```
-/
def SetWithHashF {K V : Type} [DecidableEq K] [Inhabited K] [Inhabited V]
    (fuel : Nat) (m : MapShard K V) (hash : Nat) (key : K) (value : V) :
    Option (MapShard K V × V × Bool) :=
  (if (if m.buckets.length = 0 then newShard 0 else m).growAt ≤
        (if m.buckets.length = 0 then newShard 0 else m).length then
      resizeF fuel (if m.buckets.length = 0 then newShard 0 else m)
        (2 * (if m.buckets.length = 0 then newShard 0 else m).buckets.length)
    else some (if m.buckets.length = 0 then newShard 0 else m)).bind
    fun m1 => setF fuel m1 hash key value

/-- The `for` loop of `GetWithHash`:
```go
for {
  if m.buckets[i].dib() == 0 {
    return value, false
  }
  if m.buckets[i].hash() == hash && m.buckets[i].key == key {
    return m.buckets[i].value, true
  }
  i = (i + 1) & m.mask
}
```
-/
def getLoop {K V : Type} [DecidableEq K] [Inhabited K] [Inhabited V] :
    Nat → MapShard K V → Nat → Nat → K → Option (V × Bool)
  | 0, _, _, _, _ => none
  | fuel + 1, m, i, hash, key =>
    let b := bget m.buckets i
    if b.dib = 0 then some (default, false)
    else if b.hash = hash ∧ b.key = key then some (b.value, true)
    else getLoop fuel m ((i + 1) &&& m.mask) hash key

/-- `func (m *mapShard[K, V]) GetWithHash(hash uint64, key K) (value V, ok bool)`. -/
def GetWithHashF {K V : Type} [DecidableEq K] [Inhabited K] [Inhabited V]
    (fuel : Nat) (m : MapShard K V) (hash : Nat) (key : K) : Option (V × Bool) :=
  if m.buckets.length = 0 then some (default, false)
  else getLoop fuel m (hash &&& m.mask) hash key

/-- The backward-shift loop of `remove`:
```go
for {
  pi := i
  i = (i + 1) & m.mask
  if m.buckets[i].dib() <= 1 {
    m.buckets[pi] = entry[K, V]{}
    break
  }
  m.buckets[pi] = m.buckets[i]
  m.buckets[pi].setDIB(m.buckets[pi].dib() - 1)
}
```
-/
def removeLoop {K V : Type} [Inhabited K] [Inhabited V] :
    Nat → List (Entry K V) → Nat → Nat → Option (List (Entry K V))
  | 0, _, _, _ => none
  | fuel + 1, bk, mask, i =>
    let i' := (i + 1) &&& mask
    let b := bget bk i'
    if b.dib ≤ 1 then some (bk.set i default)
    else removeLoop fuel (bk.set i (b.setDIB (b.dib - 1))) mask i'

/-- `func (m *mapShard[K, V]) remove(i uint64)`:
```go
m.buckets[i].setDIB(0)
<removeLoop>
m.length--
if len(m.buckets) > m.cap && m.length <= m.shrinkAt {
  m.resize(m.length)
}
```
-/
def removeF {K V : Type} [DecidableEq K] [Inhabited K] [Inhabited V]
    (fuel : Nat) (m : MapShard K V) (i : Nat) : Option (MapShard K V) :=
  (removeLoop fuel (m.buckets.set i ((bget m.buckets i).setDIB 0)) m.mask i).bind
    fun bk =>
      -- after the loop the mutated table is
      -- `{ m with buckets := bk, length := m.length - 1 }`; the shrink check
      -- `len(m.buckets) > m.cap && m.length <= m.shrinkAt` reads its fields
      if m.cap < bk.length ∧ m.length - 1 ≤ m.shrinkAt then
        resizeF fuel { m with buckets := bk, length := m.length - 1 } (m.length - 1)
      else some { m with buckets := bk, length := m.length - 1 }

/-- The search loop of `DeleteWithHash` (the `remove` call happens at the
match). -/
def delLoop {K V : Type} [DecidableEq K] [Inhabited K] [Inhabited V] :
    Nat → MapShard K V → Nat → Nat → K → Option (MapShard K V × V × Bool)
  | 0, _, _, _, _ => none
  | fuel + 1, m, i, hash, key =>
    let b := bget m.buckets i
    if b.dib = 0 then some (m, default, false)
    else if b.hash = hash ∧ b.key = key then
      (removeF fuel m i).map fun m' => (m', b.value, true)
    else delLoop fuel m ((i + 1) &&& m.mask) hash key

/-- `func (m *mapShard[K, V]) DeleteWithHash(hash uint64, key K) (prev V, deleted bool)`. -/
def DeleteWithHashF {K V : Type} [DecidableEq K] [Inhabited K] [Inhabited V]
    (fuel : Nat) (m : MapShard K V) (hash : Nat) (key : K) :
    Option (MapShard K V × V × Bool) :=
  if m.buckets.length = 0 then some (m, default, false)
  else delLoop fuel m (hash &&& m.mask) hash key

/-- `func (m *mapShard[K, V]) Len() int { return m.length }` -/
def MapShard.LenS {K V : Type} (m : MapShard K V) : Nat := m.length

/-- Number of occupied buckets (slots with a nonzero displacement field).
This is the specification-side count that the `length` field is supposed to
maintain; it is not a function of the source. -/
def occCount {K V : Type} (m : MapShard K V) : Nat :=
  m.buckets.countP fun e => decide (e.dib ≠ 0)

/-! ## Concurrent map (`map.go`)

```go
type Map[K comparable, V any] struct {
  init       sync.Once
  cap        int
  shards     int
  shardIDMax uint64
  seed       uint64
  mus        []sync.RWMutex
  maps       []*mapShard[K, V]
  kstr       bool
  ksize      int
}
```
The locks only serialize access; a sequential trace of operations is the
linearization, so they do not appear in the model.  The key hasher
(`xxh3.HashString` over the byte view of the key) is the injected external
collaborator: it is modelled as an arbitrary function `K → Nat` whose values
are 64-bit (`< 2^64`), carried as a hypothesis where needed.  `Init` computes
`shards` as the smallest power of two `≥ 16 * runtime.NumCPU()`; the CPU
count is external, so `shards` is a parameter of the constructed map. -/

structure ShardMap (K V : Type) where
  shards : Nat
  shardIDMax : Nat
  cap : Nat
  tables : List (MapShard K V)
  hasher : K → Nat

/-- `Init` (after `New(cap)` / first use), for a given shard count:
`shardIDMax = shards - 1`, `scap = cap / shards`, one `newShard(scap)` per
shard. -/
def mkMap {K V : Type} [Inhabited K] [Inhabited V]
    (shards cap : Nat) (hasher : K → Nat) : ShardMap K V :=
  { shards := shards
    shardIDMax := shards - 1
    cap := cap
    tables := List.replicate shards (newShard (cap / shards))
    hasher := hasher }

/-- `func (m *Map[K, V]) choose(key K) (shard, hashkey uint64)`:
```go
gkey := xxh3.HashString(strKey)
return gkey & m.shardIDMax, makeHash(gkey)
```
-/
def choose {K V : Type} (m : ShardMap K V) (key : K) : Nat × Nat :=
  (m.hasher key &&& m.shardIDMax, makeHash (m.hasher key))

/-- The shard table in slot `s` (`m.maps[shard]`; always in bounds in the
source). -/
def tbl {K V : Type} (m : ShardMap K V) (s : Nat) : MapShard K V :=
  m.tables.getD s default

/-- `Map.Set`: route, then `SetWithHash` on the chosen shard. -/
def SetM {K V : Type} [DecidableEq K] [Inhabited K] [Inhabited V]
    (fuel : Nat) (m : ShardMap K V) (key : K) (value : V) :
    Option (ShardMap K V × V × Bool) :=
  let r := choose m key
  (SetWithHashF fuel (tbl m r.1) r.2 key value).map fun p =>
    ({ m with tables := m.tables.set r.1 p.1 }, p.2)

/-- `Map.Get`: route, then `GetWithHash` on the chosen shard. -/
def GetM {K V : Type} [DecidableEq K] [Inhabited K] [Inhabited V]
    (fuel : Nat) (m : ShardMap K V) (key : K) : Option (V × Bool) :=
  let r := choose m key
  GetWithHashF fuel (tbl m r.1) r.2 key

/-- `Map.Delete`: route, then `DeleteWithHash` on the chosen shard. -/
def DeleteM {K V : Type} [DecidableEq K] [Inhabited K] [Inhabited V]
    (fuel : Nat) (m : ShardMap K V) (key : K) :
    Option (ShardMap K V × V × Bool) :=
  let r := choose m key
  (DeleteWithHashF fuel (tbl m r.1) r.2 key).map fun p =>
    ({ m with tables := m.tables.set r.1 p.1 }, p.2)

/-- `Map.SetAccept` (`accept == nil` is `none`):
```go
prev, replaced = m.maps[shard].SetWithHash(shardKey, key, value)
if accept != nil {
  if !accept(prev, replaced) {
    if !replaced {
      m.maps[shard].DeleteWithHash(shardKey, key)
    } else {
      m.maps[shard].SetWithHash(shardKey, key, prev)
    }
    return result, false
  }
}
return prev, replaced
```
-/
def SetAcceptM {K V : Type} [DecidableEq K] [Inhabited K] [Inhabited V]
    (fuel : Nat) (m : ShardMap K V) (key : K) (value : V)
    (accept : Option (V → Bool → Bool)) : Option (ShardMap K V × V × Bool) :=
  let r := choose m key
  (SetWithHashF fuel (tbl m r.1) r.2 key value).bind fun p =>
    match accept with
    | none => some ({ m with tables := m.tables.set r.1 p.1 }, p.2)
    | some f =>
      if f p.2.1 p.2.2 then
        some ({ m with tables := m.tables.set r.1 p.1 }, p.2)
      else if p.2.2 then
        (SetWithHashF fuel p.1 r.2 key p.2.1).map fun q =>
          ({ m with tables := m.tables.set r.1 q.1 }, default, false)
      else
        (DeleteWithHashF fuel p.1 r.2 key).map fun q =>
          ({ m with tables := m.tables.set r.1 q.1 }, default, false)

/-- `Map.DeleteAccept`:
```go
prev, deleted = m.maps[shard].DeleteWithHash(shardKey, key)
if accept != nil {
  if !accept(prev, deleted) {
    if deleted {
      m.maps[shard].SetWithHash(shardKey, key, prev)
    }
    return result, false
  }
}
return prev, deleted
```
-/
def DeleteAcceptM {K V : Type} [DecidableEq K] [Inhabited K] [Inhabited V]
    (fuel : Nat) (m : ShardMap K V) (key : K)
    (accept : Option (V → Bool → Bool)) : Option (ShardMap K V × V × Bool) :=
  let r := choose m key
  (DeleteWithHashF fuel (tbl m r.1) r.2 key).bind fun p =>
    match accept with
    | none => some ({ m with tables := m.tables.set r.1 p.1 }, p.2)
    | some f =>
      if f p.2.1 p.2.2 then
        some ({ m with tables := m.tables.set r.1 p.1 }, p.2)
      else if p.2.2 then
        (SetWithHashF fuel p.1 r.2 key p.2.1).map fun q =>
          ({ m with tables := m.tables.set r.1 q.1 }, default, false)
      else
        some ({ m with tables := m.tables.set r.1 p.1 }, default, false)

/-- `Map.Len`: the sum of the shard lengths (each shard's `Len()` returns its
`length` field). -/
def LenM {K V : Type} (m : ShardMap K V) : Nat :=
  (m.tables.map MapShard.length).sum

/-- What §4.3 of the specification says the intra-shard hash is:
`digest >> shard_bits` where `shard_bits = log2(shard_count)`.  This
definition follows the specification's words and exists only to be compared
against the source's `choose`/`makeHash`. -/
def specIntraShardHash (shardCount digest : Nat) : Nat :=
  digest >>> Nat.log2 shardCount

/-! ## Bit-packing bridge lemmas -/

theorem maxDIB_eq : maxDIB = 2 ^ 16 - 1 := by decide

theorem hashMask_and_maxDIB : hashMask &&& maxDIB = 0 := by decide

theorem and_maxDIB (d : Nat) : d &&& maxDIB = d % 2 ^ 16 := by
  rw [maxDIB_eq, Nat.and_pow_two_sub_one_eq_mod]

theorem and_or_distrib_right' (x y z : Nat) :
    (x ||| y) &&& z = x &&& z ||| y &&& z := by
  rw [Nat.and_comm _ z, Nat.and_or_distrib_left, Nat.and_comm z x, Nat.and_comm z y]

theorem or_shiftRight' (x y n : Nat) :
    (x ||| y) >>> n = x >>> n ||| y >>> n := by
  apply Nat.eq_of_testBit_eq
  intro i
  simp [Nat.testBit_shiftRight, Nat.testBit_or]

theorem and_shiftRight' (x y n : Nat) :
    (x &&& y) >>> n = x >>> n &&& y >>> n := by
  apply Nat.eq_of_testBit_eq
  intro i
  simp [Nat.testBit_shiftRight, Nat.testBit_and]

theorem makeHDIB_eq (h d : Nat) :
    makeHDIB h d = h % 2 ^ 48 * 2 ^ 16 + d % 2 ^ 16 := by
  have hA : (h <<< dibBitSize) % 2 ^ 64 = h % 2 ^ 48 * 2 ^ 16 := by
    show (h <<< 16) % 2 ^ 64 = h % 2 ^ 48 * 2 ^ 16
    rw [Nat.shiftLeft_eq]
    have : (2 : Nat) ^ 64 = 2 ^ 48 * 2 ^ 16 := by norm_num
    rw [this, Nat.mul_mod_mul_right]
  unfold makeHDIB
  rw [hA, and_maxDIB]
  -- disjoint-bits `|||` is `+`: compare `mod`/`div` at `2^16`
  have hlt : d % 2 ^ 16 < 2 ^ 16 := Nat.mod_lt _ (by norm_num)
  have hmod : (h % 2 ^ 48 * 2 ^ 16 ||| d % 2 ^ 16) % 2 ^ 16 = d % 2 ^ 16 := by
    rw [← Nat.and_pow_two_sub_one_eq_mod, and_or_distrib_right',
      Nat.and_pow_two_sub_one_eq_mod, Nat.and_pow_two_sub_one_eq_mod,
      Nat.mul_mod_left, Nat.mod_mod_of_dvd _ dvd_rfl, Nat.zero_or]
  have hdiv : (h % 2 ^ 48 * 2 ^ 16 ||| d % 2 ^ 16) / 2 ^ 16 = h % 2 ^ 48 := by
    have hor := or_shiftRight' (h % 2 ^ 48 * 2 ^ 16) (d % 2 ^ 16) 16
    simp only [Nat.shiftRight_eq_div_pow] at hor
    have hc : h % 2 ^ 48 * 2 ^ 16 / 2 ^ 16 = h % 2 ^ 48 := by omega
    rw [hor, hc, Nat.div_eq_of_lt hlt, Nat.or_zero]
  calc h % 2 ^ 48 * 2 ^ 16 ||| d % 2 ^ 16
      = 2 ^ 16 * ((h % 2 ^ 48 * 2 ^ 16 ||| d % 2 ^ 16) / 2 ^ 16) +
        (h % 2 ^ 48 * 2 ^ 16 ||| d % 2 ^ 16) % 2 ^ 16 :=
        (Nat.div_add_mod _ _).symm
    _ = h % 2 ^ 48 * 2 ^ 16 + d % 2 ^ 16 := by rw [hmod, hdiv]; ring

theorem makeHDIB_dib {K V : Type} (h d : Nat) (k : K) (v : V) :
    (Entry.mk (makeHDIB h d) k v).dib = d % 2 ^ 16 := by
  show makeHDIB h d &&& maxDIB = d % 2 ^ 16
  rw [and_maxDIB, makeHDIB_eq]
  omega

theorem makeHDIB_hash {K V : Type} (h d : Nat) (k : K) (v : V) :
    (Entry.mk (makeHDIB h d) k v).hash = h % 2 ^ 48 := by
  show makeHDIB h d >>> dibBitSize = h % 2 ^ 48
  show makeHDIB h d >>> 16 = h % 2 ^ 48
  rw [Nat.shiftRight_eq_div_pow, makeHDIB_eq]
  omega

theorem setDIB_dib {K V : Type} (e : Entry K V) (d : Nat) :
    (e.setDIB d).dib = d % 2 ^ 16 := by
  show (e.hdib &&& hashMask ||| d &&& maxDIB) &&& maxDIB = d % 2 ^ 16
  rw [and_or_distrib_right', Nat.and_assoc, hashMask_and_maxDIB, Nat.and_zero,
    Nat.and_assoc, Nat.and_self, Nat.zero_or, and_maxDIB]

theorem setDIB_hash {K V : Type} (e : Entry K V) (d : Nat) :
    (e.setDIB d).hash = e.hash % 2 ^ 48 := by
  show (e.hdib &&& hashMask ||| d &&& maxDIB) >>> dibBitSize = e.hash % 2 ^ 48
  show (e.hdib &&& hashMask ||| d &&& maxDIB) >>> 16 = e.hash % 2 ^ 48
  rw [or_shiftRight', and_shiftRight']
  have h1 : hashMask >>> 16 = 2 ^ 48 - 1 := by decide
  have h2 : (d &&& maxDIB) >>> 16 = 0 := by
    rw [and_maxDIB, Nat.shiftRight_eq_div_pow,
      Nat.div_eq_of_lt (Nat.mod_lt _ (by norm_num))]
  rw [h1, h2, Nat.or_zero, Nat.and_pow_two_sub_one_eq_mod]
  rfl

theorem setDIB_key {K V : Type} (e : Entry K V) (d : Nat) :
    (e.setDIB d).key = e.key := rfl

theorem setDIB_value {K V : Type} (e : Entry K V) (d : Nat) :
    (e.setDIB d).value = e.value := rfl

/-! ## C1 — the shard router's split

The source's `choose` returns `(gkey & m.shardIDMax, makeHash(gkey))` and
`makeHash` shifts by the fixed constant `dibBitSize = 16`, not by
`log2(shard_count)`.  The two only coincide when `shard_count = 2^16`.  With
16 shards (`runtime.NumCPU() == 1`) and digest `2^15`, the code hands the
shard `2^15 >> 16 = 0` while the specification's formula gives
`2^15 >> 4 = 2^11`. -/

/-- C1 (counterexample): on a 16-shard map whose hasher returns the digest
`32768 = 2^15`, the intra-shard hash computed by `choose` differs from the
spec-claimed `digest >> log2(shard_count)`. -/
theorem C1_counterexample :
    (choose (mkMap 16 0 (fun k => k) : ShardMap Nat Nat) 32768).2 ≠
      specIntraShardHash 16 32768 := by
  have h1 : (choose (mkMap 16 0 (fun k => k) : ShardMap Nat Nat) 32768).2 = 0 := rfl
  have hlog : Nat.log2 16 = 4 := by simp [Nat.log2]
  have h2 : specIntraShardHash 16 32768 = 2048 := by
    unfold specIntraShardHash
    rw [hlog]
    decide
  rw [h1, h2]
  decide

/-- C1 (amended): the router splits the digest into
`shard_index = digest & shard_mask` (equivalently `digest mod shard_count`,
since the shard count is a power of two) and
`intra_shard_hash = digest >> dibBitSize = digest >> 16`.  The shift amount
is the fixed constant 16, independent of the shard count; it equals
`log2(shard_count)` only when `shard_count = 2^16`. -/
theorem C1_amended_router {K V : Type} (m : ShardMap K V) (key : K) (s : Nat)
    (hS : m.shards = 2 ^ s) (hmax : m.shardIDMax = m.shards - 1) :
    choose m key = (m.hasher key % m.shards, m.hasher key / 2 ^ 16) := by
  unfold choose makeHash
  rw [hmax, hS, Nat.and_pow_two_sub_one_eq_mod, Nat.shiftRight_eq_div_pow]
  rfl

/-- C1 (witness for `C1_amended_router`). -/
theorem C1_amended_router_witness :
    choose (mkMap 16 0 (fun k => k) : ShardMap Nat Nat) 32768 =
      (32768 % 16, 32768 / 2 ^ 16) :=
  C1_amended_router (mkMap 16 0 (fun k => k)) 32768 4 (by decide) (by decide)

/-! ## C9 — shard index bound and 48-bit hash fragment soundness -/

/-- C9: for any key of a map whose shard count is a power of two with
`shardIDMax = shards - 1` (what `Init` establishes) and whose hasher produces
a 64-bit digest, `choose` returns a shard index strictly below the shard
count and an intra-shard hash strictly below `2^48`; consequently packing
that hash into the 48-bit fragment of an entry (together with any
displacement) and reading the fragment back is lossless, so the lookup
comparison `m.buckets[i].hash() == hash` is comparing untruncated values. -/
theorem C9_choose_bounds {K V : Type} (m : ShardMap K V) (key : K) (s : Nat)
    (v : V) (hS : m.shards = 2 ^ s) (hmax : m.shardIDMax = m.shards - 1)
    (h64 : m.hasher key < 2 ^ 64) :
    (choose m key).1 < m.shards ∧ (choose m key).2 < 2 ^ 48 ∧
      ∀ d : Nat,
        (Entry.mk (makeHDIB (choose m key).2 d) key v).hash = (choose m key).2 := by
  have hpos : 0 < m.shards := by rw [hS]; exact Nat.pos_pow_of_pos s (by norm_num)
  have hfrag : (choose m key).2 < 2 ^ 48 := by
    show makeHash (m.hasher key) < 2 ^ 48
    unfold makeHash
    rw [Nat.shiftRight_eq_div_pow]
    have : m.hasher key < 2 ^ 48 * 2 ^ 16 := by
      calc m.hasher key < 2 ^ 64 := h64
        _ = 2 ^ 48 * 2 ^ 16 := by norm_num
    exact Nat.div_lt_of_lt_mul this
  refine ⟨?_, hfrag, ?_⟩
  · show m.hasher key &&& m.shardIDMax < m.shards
    calc m.hasher key &&& m.shardIDMax ≤ m.shardIDMax := Nat.and_le_right
      _ = m.shards - 1 := hmax
      _ < m.shards := Nat.sub_lt hpos (by norm_num)
  · intro d
    rw [makeHDIB_hash, Nat.mod_eq_of_lt hfrag]

/-- C9 (witness for `C9_choose_bounds`). -/
theorem C9_choose_bounds_witness :
    (choose (mkMap 16 0 (fun k => k * 2 ^ 50 + 7) : ShardMap Nat Nat) 3).1 <
        (mkMap 16 0 (fun k => k * 2 ^ 50 + 7) : ShardMap Nat Nat).shards ∧
      (choose (mkMap 16 0 (fun k => k * 2 ^ 50 + 7) : ShardMap Nat Nat) 3).2 < 2 ^ 48 ∧
      ∀ d : Nat,
        (Entry.mk
          (makeHDIB (choose (mkMap 16 0 (fun k => k * 2 ^ 50 + 7) : ShardMap Nat Nat) 3).2 d)
          3 0).hash =
        (choose (mkMap 16 0 (fun k => k * 2 ^ 50 + 7) : ShardMap Nat Nat) 3).2 :=
  C9_choose_bounds (mkMap 16 0 (fun k => k * 2 ^ 50 + 7)) 3 4 0
    (by decide) (by decide) (by decide)

/-! ## C8 — grow/shrink thresholds vs the claimed floors

The code computes `growAt = int(float64(n) * 0.85)` and
`shrinkAt = int(float64(n) * (1 - 0.85))`, i.e. (exactly, see
`loadFactorNum` and `shrinkFactorNum`) `⌊n·M/2^53⌋` and `⌊n·S/2^55⌋` with
`M = 7656119366529843 = double(0.85)·2^53` and
`S = 5404319552844595 = double(0.15)·2^55`.  Because `M/2^53 < 0.85` and
`S/2^55 < 0.15`, these agree with `⌊0.85·n⌋` and `⌊0.15·n⌋` for every power
of two `n < 2^56` — i.e. for every table a real machine could hold — but not
in general: at `n = 2^56` the computed `growAt` is `61248954932238744` while
`⌊0.85·2^56⌋ = 61248954932238745`, and at `n = 2^58` the computed `shrinkAt`
is `43234556422756760` while `⌊0.15·2^58⌋ = 43234556422756761`. -/

/-- C8 (counterexample): the shard table constructed by `newShard(2^56)` has
`growAt ≠ floor(buckets.length * 0.85)` (so the claimed pair of threshold
equations fails for it). -/
theorem C8_counterexample :
    ¬ ((newShard (2 ^ 56) : MapShard Nat Nat).growAt =
          (newShard (2 ^ 56) : MapShard Nat Nat).buckets.length * 17 / 20 ∧
       (newShard (2 ^ 56) : MapShard Nat Nat).shrinkAt =
          (newShard (2 ^ 56) : MapShard Nat Nat).buckets.length * 3 / 20) := by
  intro hc
  have h1 := hc.1
  have hlen : (newShard (2 ^ 56) : MapShard Nat Nat).buckets.length = sizeFor (2 ^ 56) := by
    simp [newShard]
  have hgro : (newShard (2 ^ 56) : MapShard Nat Nat).growAt = growAtF (sizeFor (2 ^ 56)) :=
    rfl
  rw [hgro, hlen] at h1
  have hsz : sizeFor (2 ^ 56) = 2 ^ 56 := by decide
  rw [hsz] at h1
  exact absurd h1 (by decide)

/-- The size loop always yields a power of two that is at least 8. -/
theorem sizeForGo_pow (cap : Nat) :
    ∀ fuel sz, (∃ j, sz = 2 ^ j ∧ 3 ≤ j) →
      ∃ j, sizeForGo cap fuel sz = 2 ^ j ∧ 3 ≤ j := by
  intro fuel
  induction fuel with
  | zero => intro sz h; exact h
  | succ fuel ih =>
    intro sz h
    unfold sizeForGo
    by_cases hlt : sz < cap
    · simp only [hlt, if_true]
      obtain ⟨j, hj, h3⟩ := h
      exact ih (2 * sz) ⟨j + 1, by rw [hj]; ring, by omega⟩
    · simp only [hlt, if_false]
      exact h

theorem sizeFor_pow (cap : Nat) : ∃ j, sizeFor cap = 2 ^ j ∧ 3 ≤ j :=
  sizeForGo_pow cap cap 8 ⟨3, by norm_num⟩

/-- The floors agree for all powers of two `2^j` with `3 ≤ j ≤ 55` (the
shrink equation even holds up to `j = 57`; the grow equation first fails at
`j = 56` — see `C8_counterexample` — and the shrink equation at `j = 58`). -/
theorem floors_eq_below :
    ∀ j, j < 56 → 3 ≤ j →
      growAtF (2 ^ j) = 2 ^ j * 17 / 20 ∧ shrinkAtF (2 ^ j) = 2 ^ j * 3 / 20 := by
  decide

/-- The shrink floor alone holds two octaves further, up to `2^57`. -/
theorem shrink_floor_eq_below :
    ∀ j, j < 58 → 3 ≤ j → shrinkAtF (2 ^ j) = 2 ^ j * 3 / 20 := by
  decide

/-- C8 (amended): for every constructed shard table whose bucket-array length
is below `2^56` (every physically realizable table; all construction —
initial, grow, shrink, `Clear` — goes through `newShard`), the thresholds
satisfy `grow_at = floor(buckets.length * 0.85)` and
`shrink_at = floor(buckets.length * 0.15)`; in general the code's `float64`
computation yields `⌊n·M/2^53⌋` and `⌊n·S/2^55⌋` with
`M = 7656119366529843 = double(0.85)·2^53` and
`S = 5404319552844595 = double(0.15)·2^55`, which first diverge from those
floors at bucket lengths `2^56` (grow) and `2^58` (shrink). -/
theorem C8_amended_thresholds (cap : Nat) (hsz : sizeFor cap ≤ 2 ^ 55) :
    (newShard cap : MapShard Nat Nat).growAt =
        (newShard cap : MapShard Nat Nat).buckets.length * 17 / 20 ∧
      (newShard cap : MapShard Nat Nat).shrinkAt =
        (newShard cap : MapShard Nat Nat).buckets.length * 3 / 20 := by
  have hlen : (newShard cap : MapShard Nat Nat).buckets.length = sizeFor cap := by
    simp [newShard]
  have hga : (newShard cap : MapShard Nat Nat).growAt = growAtF (sizeFor cap) := rfl
  have hsa : (newShard cap : MapShard Nat Nat).shrinkAt = shrinkAtF (sizeFor cap) := rfl
  obtain ⟨j, hj, h3⟩ := sizeFor_pow cap
  have hj55 : j < 56 := by
    by_contra hge
    push_neg at hge
    have : (2 : Nat) ^ 55 < 2 ^ j := Nat.pow_lt_pow_right (by norm_num) (by omega)
    omega
  rw [hga, hsa, hlen, hj]
  exact floors_eq_below j hj55 h3

/-- C8 (witness for `C8_amended_thresholds`, at capacity hint 100 → 128
buckets). -/
theorem C8_amended_thresholds_witness :
    (newShard 100 : MapShard Nat Nat).growAt =
        (newShard 100 : MapShard Nat Nat).buckets.length * 17 / 20 ∧
      (newShard 100 : MapShard Nat Nat).shrinkAt =
        (newShard 100 : MapShard Nat Nat).buckets.length * 3 / 20 :=
  C8_amended_thresholds 100 (by decide)

/-! ## Bookkeeping lemmas for the loops -/

/-- Occupancy count of a bucket list: slots with nonzero displacement. -/
def occP {K V : Type} (l : List (Entry K V)) : Nat :=
  l.countP fun e => decide (e.dib ≠ 0)

theorem occCount_eq_occP {K V : Type} (m : MapShard K V) :
    occCount m = occP m.buckets := rfl

/-- Occupancy of a single slot, as a 0/1 weight. -/
def occBit {K V : Type} [Inhabited K] [Inhabited V]
    (l : List (Entry K V)) (i : Nat) : Nat :=
  if (bget l i).dib ≠ 0 then 1 else 0

theorem dib_default {K V : Type} [Inhabited K] [Inhabited V] :
    (default : Entry K V).dib = 0 := by
  show (0 : Nat) &&& maxDIB = 0
  exact Nat.zero_and maxDIB

theorem dib_lt {K V : Type} (e : Entry K V) : e.dib < 2 ^ 16 := by
  rw [Entry.dib, and_maxDIB]
  exact Nat.mod_lt _ (by norm_num)

theorem bget_set_self {K V : Type} [Inhabited K] [Inhabited V]
    {l : List (Entry K V)} {i : Nat} (h : i < l.length) (v : Entry K V) :
    bget (l.set i v) i = v := by
  simp [bget, List.getD_eq_getElem?_getD, List.getElem?_set_self h]

theorem bget_set_ne {K V : Type} [Inhabited K] [Inhabited V]
    {l : List (Entry K V)} {i j : Nat} (h : i ≠ j) (v : Entry K V) :
    bget (l.set i v) j = bget l j := by
  simp [bget, List.getD_eq_getElem?_getD, List.getElem?_set_ne h]

theorem bget_set_oob {K V : Type} [Inhabited K] [Inhabited V]
    {l : List (Entry K V)} {i : Nat} (h : l.length ≤ i) (v : Entry K V) :
    l.set i v = l :=
  List.set_eq_of_length_le h

/-- `countP` after a single in-bounds update, in cancellation-free form. -/
theorem countP_set {α : Type} (p : α → Bool) :
    ∀ (l : List α) (i : Nat) (v : α) (h : i < l.length),
      (l.set i v).countP p + (if p (l.get ⟨i, h⟩) then 1 else 0) =
        l.countP p + (if p v then 1 else 0)
  | [], i, v, h => absurd h (by simp)
  | a :: t, 0, v, _ => by
    simp only [List.set_cons_zero, List.countP_cons, List.get]
    omega
  | a :: t, i + 1, v, h => by
    simp only [List.set_cons_succ, List.countP_cons, List.get]
    have := countP_set p t i v (by simpa using h)
    omega

/-- `occP` after a single update, phrased with `bget` (covers out of bounds). -/
theorem occP_set {K V : Type} [Inhabited K] [Inhabited V]
    (l : List (Entry K V)) (i : Nat) (v : Entry K V) (h : i < l.length) :
    occP (l.set i v) + occBit l i = occP l + (if v.dib ≠ 0 then 1 else 0) := by
  have hc := countP_set (fun e => decide (e.dib ≠ 0)) l i v h
  have hb : bget l i = l.get ⟨i, h⟩ := by
    simp [bget, List.getD_eq_getElem?_getD, List.getElem?_eq_getElem h, List.get_eq_getElem]
  unfold occP occBit
  rw [hb]
  simpa using hc

/-- An update that preserves a slot's occupancy status preserves `occP`. -/
theorem occP_set_eq_of {K V : Type} [Inhabited K] [Inhabited V]
    (l : List (Entry K V)) (i : Nat) (v : Entry K V)
    (h : v.dib ≠ 0 ↔ (bget l i).dib ≠ 0) : occP (l.set i v) = occP l := by
  by_cases hin : i < l.length
  · have hs := occP_set l i v hin
    unfold occBit at hs
    by_cases hv : v.dib ≠ 0
    · rw [if_pos hv, if_pos (h.mp hv)] at hs
      omega
    · rw [if_neg hv, if_neg (fun hc => hv (h.mpr hc))] at hs
      omega
  · rw [bget_set_oob (by omega) v]

/-- Everything `setLoop` does to a table, except the bucket contents:
auxiliary fields are untouched, the bucket count is fixed, the `length`
field grows by at most one, and the occupancy count cannot outgrow the
`length` field (`occ' + len ≤ occ + len'`). -/
theorem setLoop_spec {K V : Type} [DecidableEq K] [Inhabited K] [Inhabited V] :
    ∀ (fuel : Nat) (m : MapShard K V) (e : Entry K V) (i : Nat)
      (m' : MapShard K V) (p : V) (r : Bool),
      setLoop fuel m e i = some (m', p, r) →
      m'.cap = m.cap ∧ m'.growAt = m.growAt ∧ m'.shrinkAt = m.shrinkAt ∧
        m'.mask = m.mask ∧ m'.buckets.length = m.buckets.length ∧
        m'.length ≤ m.length + 1 ∧
        occP m'.buckets + m.length ≤ occP m.buckets + m'.length
  | 0, _, _, _, _, _, _ => by intro h; exact absurd h (by simp [setLoop])
  | fuel + 1, m, e, i, m', p, r => by
    intro h
    unfold setLoop at h
    by_cases h0 : (bget m.buckets i).dib = 0
    · simp only [h0, if_true] at h
      obtain ⟨hm, _, _⟩ := Prod.mk.injEq .. ▸ (Option.some.injEq .. ▸ h)
      subst hm
      refine ⟨rfl, rfl, rfl, rfl, by simp, by simp, ?_⟩
      show occP (m.buckets.set i e) + m.length ≤ occP m.buckets + (m.length + 1)
      by_cases hin : i < m.buckets.length
      · have := occP_set m.buckets i e hin
        have hbit : occBit m.buckets i = 0 := by simp [occBit, h0]
        rw [hbit] at this
        split at this <;> omega
      · rw [bget_set_oob (by omega) e]
        omega
    · simp only [h0, if_false] at h
      by_cases hmatch : e.hash = (bget m.buckets i).hash ∧ e.key = (bget m.buckets i).key
      · simp only [if_pos hmatch] at h
        obtain ⟨hm, _, _⟩ := Prod.mk.injEq .. ▸ (Option.some.injEq .. ▸ h)
        subst hm
        refine ⟨rfl, rfl, rfl, rfl, by simp, Nat.le_succ _, ?_⟩
        show occP (m.buckets.set i { bget m.buckets i with value := e.value }) + m.length ≤
          occP m.buckets + m.length
        have hocc : occP (m.buckets.set i { bget m.buckets i with value := e.value }) =
            occP m.buckets :=
          occP_set_eq_of m.buckets i { bget m.buckets i with value := e.value } Iff.rfl
        rw [hocc]
      · simp only [if_neg hmatch] at h
        by_cases hswap : (bget m.buckets i).dib < e.dib
        · simp only [if_pos hswap] at h
          have ih := setLoop_spec fuel _ _ _ m' p r h
          obtain ⟨h1, h2, h3, h4, h5, h6, h7⟩ := ih
          refine ⟨h1, h2, h3, h4, ?_, ?_, ?_⟩
          · rw [h5]; simp
          · simpa using h6
          · -- the swap preserves occupancy: it writes an entry with
            -- `dib > (resident dib) ≥ 1` over an occupied slot
            have hocc : occP (m.buckets.set i e) = occP m.buckets :=
              occP_set_eq_of m.buckets i e ⟨fun _ => h0, fun _ => by omega⟩
            simp only [hocc] at h7 ⊢
            exact h7
        · simp only [if_neg hswap] at h
          exact setLoop_spec fuel _ _ _ m' p r h

theorem bget_oob {K V : Type} [Inhabited K] [Inhabited V]
    {l : List (Entry K V)} {i : Nat} (h : l.length ≤ i) :
    bget l i = default := by
  simp [bget, List.getD_eq_getElem?_getD, List.getElem?_eq_none h]

theorem occBit_le_one {K V : Type} [Inhabited K] [Inhabited V]
    (l : List (Entry K V)) (i : Nat) : occBit l i ≤ 1 := by
  unfold occBit
  split <;> omega

/-- The backward-shift loop never changes the number of buckets. -/
theorem removeLoop_length {K V : Type} [Inhabited K] [Inhabited V] :
    ∀ (fuel : Nat) (bk : List (Entry K V)) (mask i : Nat)
      (bk' : List (Entry K V)),
      removeLoop fuel bk mask i = some bk' → bk'.length = bk.length
  | 0, _, _, _, _ => by intro h; exact absurd h (by simp [removeLoop])
  | fuel + 1, bk, mask, i, bk' => by
    intro h
    unfold removeLoop at h
    by_cases hd : (bget bk ((i + 1) &&& mask)).dib ≤ 1
    · simp only [if_pos hd, Option.some.injEq] at h
      subst h
      simp
    · simp only [if_neg hd] at h
      have := removeLoop_length fuel _ mask _ bk' h
      simpa using this

/-- One shift step of the backward-shift loop preserves the occupancy
budget (`i` is the gap slot being filled, `i'` the slot being shifted
backward, holding `b`). -/
theorem occ_shift_step {K V : Type} [Inhabited K] [Inhabited V]
    (bk : List (Entry K V)) (i i' B : Nat) (b : Entry K V)
    (hb : bget bk i' = b) (hd : 1 < b.dib)
    (hB : occP bk ≤ B + occBit bk i) :
    occP (bk.set i (b.setDIB (b.dib - 1))) ≤
      B + occBit (bk.set i (b.setDIB (b.dib - 1))) i' := by
  have hnewdib : (b.setDIB (b.dib - 1)).dib = b.dib - 1 := by
    rw [setDIB_dib, Nat.mod_eq_of_lt (by have := dib_lt b; omega)]
  have hnew0 : (b.setDIB (b.dib - 1)).dib ≠ 0 := by omega
  have hbit' : occBit (bk.set i (b.setDIB (b.dib - 1))) i' = 1 := by
    unfold occBit
    by_cases hii : i = i'
    · subst hii
      by_cases hin : i < bk.length
      · rw [bget_set_self hin]
        simp [hnew0]
      · rw [bget_set_oob (by omega) _, hb]
        have : b.dib ≠ 0 := by omega
        simp [this]
    · rw [bget_set_ne hii, hb]
      have : b.dib ≠ 0 := by omega
      simp [this]
  rw [hbit']
  by_cases hin : i < bk.length
  · have hs := occP_set bk i (b.setDIB (b.dib - 1)) hin
    rw [if_pos hnew0] at hs
    have := occBit_le_one bk i
    omega
  · rw [bget_set_oob (by omega) _]
    have := occBit_le_one bk i
    omega

/-- Occupancy accounting for the backward-shift loop: if the occupancy of the
input is at most `B` plus the (0/1) occupancy of the current gap slot, the
occupancy of the result is at most `B`. -/
theorem removeLoop_occ {K V : Type} [Inhabited K] [Inhabited V] (mask B : Nat) :
    ∀ (fuel : Nat) (bk : List (Entry K V)) (i : Nat) (bk' : List (Entry K V)),
      removeLoop fuel bk mask i = some bk' →
      occP bk ≤ B + occBit bk i → occP bk' ≤ B
  | 0, _, _, _ => by intro h; exact absurd h (by simp [removeLoop])
  | fuel + 1, bk, i, bk' => by
    intro h hB
    unfold removeLoop at h
    by_cases hd : (bget bk ((i + 1) &&& mask)).dib ≤ 1
    · simp only [if_pos hd, Option.some.injEq] at h
      subst h
      by_cases hin : i < bk.length
      · have hs := occP_set bk i default hin
        rw [if_neg (by simp [dib_default])] at hs
        omega
      · rw [bget_set_oob (by omega) _]
        have hz : occBit bk i = 0 := by
          unfold occBit
          rw [bget_oob (by omega)]
          simp [dib_default]
        omega
    · simp only [if_neg hd] at h
      push_neg at hd
      exact removeLoop_occ mask B fuel _ _ bk' h
        (occ_shift_step bk i ((i + 1) &&& mask) B _ rfl hd hB)

/-- The re-insertion fold of `resize`: auxiliary fields are untouched, the
bucket count is fixed, `occ ≤ length` is preserved, and the final `length`
exceeds the initial one by at most the number of occupied input entries. -/
theorem resize_fold_spec {K V : Type} [DecidableEq K] [Inhabited K] [Inhabited V]
    (fuel : Nat) :
    ∀ (l : List (Entry K V)) (acc nm : MapShard K V),
      l.foldlM
        (fun acc e =>
          if e.dib ≠ 0 then (setF fuel acc e.hash e.key e.value).map Prod.fst
          else pure acc) acc = some nm →
      nm.cap = acc.cap ∧ nm.growAt = acc.growAt ∧ nm.shrinkAt = acc.shrinkAt ∧
        nm.mask = acc.mask ∧ nm.buckets.length = acc.buckets.length ∧
        (occP acc.buckets ≤ acc.length → occP nm.buckets ≤ nm.length) ∧
        nm.length ≤ acc.length + occP l
  | [], acc, nm => by
    intro h
    simp only [List.foldlM_nil, pure, Option.some.injEq] at h
    subst h
    exact ⟨rfl, rfl, rfl, rfl, rfl, fun hx => hx, by simp [occP]⟩
  | e :: t, acc, nm => by
    intro h
    simp only [List.foldlM_cons] at h
    by_cases he : e.dib ≠ 0
    · rw [if_pos he] at h
      obtain ⟨acc', hstep, hrest⟩ := Option.bind_eq_some.mp h
      obtain ⟨trip, htrip, hfst⟩ := Option.map_eq_some'.mp hstep
      obtain ⟨c1, c2, c3, c4, c5, c6, c7⟩ :=
        setLoop_spec fuel acc _ _ trip.1 trip.2.1 trip.2.2 (by
          rw [← htrip]
          rfl)
      subst hfst
      obtain ⟨d1, d2, d3, d4, d5, d6, d7⟩ := resize_fold_spec fuel t trip.1 nm hrest
      refine ⟨d1.trans c1, d2.trans c2, d3.trans c3, d4.trans c4, d5.trans c5, ?_, ?_⟩
      · intro hx
        exact d6 (by omega)
      · have : occP (e :: t) = occP t + 1 := by
          simp [occP, List.countP_cons, he]
        omega
    · rw [if_neg he] at h
      obtain ⟨d1, d2, d3, d4, d5, d6, d7⟩ := resize_fold_spec fuel t acc nm h
      refine ⟨d1, d2, d3, d4, d5, d6, ?_⟩
      have : occP (e :: t) = occP t := by
        simp only [occP, List.countP_cons]
        simp [he]
      omega

/-! ## Structural facts about `newShard`, `sizeFor`, `resizeF` -/

theorem newShard_cap {K V : Type} [Inhabited K] [Inhabited V] (c : Nat) :
    (newShard c : MapShard K V).cap = c := rfl

theorem newShard_length {K V : Type} [Inhabited K] [Inhabited V] (c : Nat) :
    (newShard c : MapShard K V).length = 0 := rfl

theorem newShard_growAt {K V : Type} [Inhabited K] [Inhabited V] (c : Nat) :
    (newShard c : MapShard K V).growAt = growAtF (sizeFor c) := rfl

theorem newShard_shrinkAt {K V : Type} [Inhabited K] [Inhabited V] (c : Nat) :
    (newShard c : MapShard K V).shrinkAt = shrinkAtF (sizeFor c) := rfl

theorem newShard_mask {K V : Type} [Inhabited K] [Inhabited V] (c : Nat) :
    (newShard c : MapShard K V).mask = sizeFor c - 1 := rfl

theorem newShard_buckets_length {K V : Type} [Inhabited K] [Inhabited V] (c : Nat) :
    (newShard c : MapShard K V).buckets.length = sizeFor c := by
  simp [newShard]

theorem newShard_occP {K V : Type} [Inhabited K] [Inhabited V] (c : Nat) :
    occP (newShard c : MapShard K V).buckets = 0 := by
  show occP (List.replicate (sizeFor c) (default : Entry K V)) = 0
  unfold occP
  rw [List.countP_eq_zero]
  intro a ha
  rw [List.eq_of_mem_replicate ha]
  simp [dib_default]

theorem resizeF_spec {K V : Type} [DecidableEq K] [Inhabited K] [Inhabited V]
    (fuel : Nat) (m : MapShard K V) (newCap : Nat) (nm : MapShard K V)
    (h : resizeF fuel m newCap = some nm) :
    nm.cap = m.cap ∧ nm.buckets.length = sizeFor newCap ∧
      nm.mask = sizeFor newCap - 1 ∧ nm.growAt = growAtF (sizeFor newCap) ∧
      nm.shrinkAt = shrinkAtF (sizeFor newCap) ∧
      occP nm.buckets ≤ nm.length ∧ nm.length ≤ occP m.buckets := by
  unfold resizeF at h
  obtain ⟨mid, hfold, hfin⟩ := Option.map_eq_some'.mp h
  obtain ⟨d1, d2, d3, d4, d5, d6, d7⟩ := resize_fold_spec fuel m.buckets (newShard newCap) mid hfold
  subst hfin
  refine ⟨rfl, ?_, ?_, ?_, ?_, ?_, ?_⟩
  · show mid.buckets.length = sizeFor newCap
    rw [d5, newShard_buckets_length]
  · show mid.mask = sizeFor newCap - 1
    rw [d4, newShard_mask]
  · show mid.growAt = growAtF (sizeFor newCap)
    rw [d2, newShard_growAt]
  · show mid.shrinkAt = shrinkAtF (sizeFor newCap)
    rw [d3, newShard_shrinkAt]
  · exact d6 (by rw [newShard_occP]; omega)
  · show mid.length ≤ occP m.buckets
    have h0 := newShard_length (K := K) (V := V) newCap
    omega

/-- Once `sz` has reached `cap`, the size loop stops. -/
theorem sizeForGo_of_ge (cap : Nat) :
    ∀ (fuel sz : Nat), cap ≤ sz → sizeForGo cap fuel sz = sz
  | 0, sz, _ => rfl
  | fuel + 1, sz, h => by
    unfold sizeForGo
    rw [if_neg (by omega)]

/-- With enough fuel, the size loop reaches at least `cap`. -/
theorem sizeForGo_ge (cap : Nat) :
    ∀ (fuel sz : Nat), 0 < sz → cap ≤ 2 ^ fuel * sz → cap ≤ sizeForGo cap fuel sz
  | 0, sz, _, h => by
    unfold sizeForGo
    simpa using h
  | fuel + 1, sz, hsz, h => by
    unfold sizeForGo
    by_cases hlt : sz < cap
    · rw [if_pos hlt]
      refine sizeForGo_ge cap fuel (2 * sz) (by omega) ?_
      calc cap ≤ 2 ^ (fuel + 1) * sz := h
        _ = 2 ^ fuel * (2 * sz) := by ring
    · rw [if_neg hlt]
      omega

theorem le_sizeFor (cap : Nat) : cap ≤ sizeFor cap := by
  refine sizeForGo_ge cap cap 8 (by norm_num) ?_
  have := Nat.lt_two_pow cap
  calc cap ≤ 2 ^ cap := by omega
    _ ≤ 2 ^ cap * 8 := by omega

theorem sizeForGo_reach (k : Nat) :
    ∀ (fuel j : Nat), j ≤ k → k - j ≤ fuel →
      sizeForGo (2 ^ k) fuel (2 ^ j) = 2 ^ k
  | 0, j, hj, hf => by
    have : j = k := by omega
    subst this
    rfl
  | fuel + 1, j, hj, hf => by
    unfold sizeForGo
    by_cases hlt : (2 : Nat) ^ j < 2 ^ k
    · rw [if_pos hlt]
      have hjk : j < k := by
        by_contra hge
        push_neg at hge
        have : j = k := by omega
        subst this
        omega
      have h2 : 2 * 2 ^ j = 2 ^ (j + 1) := by ring
      rw [h2]
      exact sizeForGo_reach k fuel (j + 1) (by omega) (by omega)
    · rw [if_neg hlt]
      have := Nat.pow_le_pow_right (show 1 ≤ 2 by norm_num) hj
      omega

/-- `sizeFor` is the identity on the powers of two `≥ 8` (with `8` for
smaller arguments, by `sizeForGo_of_ge`). -/
theorem sizeFor_two_pow (k : Nat) (h3 : 3 ≤ k) : sizeFor (2 ^ k) = 2 ^ k := by
  unfold sizeFor
  have h8 : (8 : Nat) = 2 ^ 3 := by norm_num
  rw [h8]
  refine sizeForGo_reach k (2 ^ k) 3 h3 ?_
  have := Nat.lt_two_pow k
  omega

theorem loadFactorNum_lt : loadFactorNum < 2 ^ 53 := by decide

theorem growAtF_lt (n : Nat) (hn : 0 < n) : growAtF n < n := by
  unfold growAtF
  rw [Nat.div_lt_iff_lt_mul (by norm_num : 0 < (2 : Nat) ^ 53)]
  have h53 : (2 : Nat) ^ 53 = 9007199254740992 := by norm_num
  rw [h53]
  unfold loadFactorNum
  omega

/-! ## The reachable-state invariant (C10) -/

/-- The inductive invariant maintained by every shard-table operation:
the bucket count is a power of two `≥ 8`; `mask`, `growAt`, `shrinkAt` are
the derived values for that bucket count; the `length` field is an upper
bound for the occupancy count and is itself bounded by the bucket count. -/
def Inv {K V : Type} (m : MapShard K V) : Prop :=
  (∃ k, 3 ≤ k ∧ m.buckets.length = 2 ^ k) ∧
    m.mask = m.buckets.length - 1 ∧
    m.growAt = growAtF m.buckets.length ∧
    m.shrinkAt = shrinkAtF m.buckets.length ∧
    occP m.buckets ≤ m.length ∧
    m.length ≤ m.buckets.length

theorem newShard_Inv {K V : Type} [Inhabited K] [Inhabited V] (c : Nat) :
    Inv (newShard c : MapShard K V) := by
  obtain ⟨j, hj, h3⟩ := sizeFor_pow c
  refine ⟨⟨j, h3, by rw [newShard_buckets_length, hj]⟩, ?_, ?_, ?_, ?_, ?_⟩
  · rw [newShard_mask, newShard_buckets_length]
  · rw [newShard_growAt, newShard_buckets_length]
  · rw [newShard_shrinkAt, newShard_buckets_length]
  · rw [newShard_occP, newShard_length]
  · rw [newShard_length]
    omega

theorem SetWithHashF_Inv {K V : Type} [DecidableEq K] [Inhabited K] [Inhabited V]
    (fuel : Nat) (m : MapShard K V) (hash : Nat) (key : K) (value : V)
    (m' : MapShard K V) (p : V) (r : Bool) (hInv : Inv m)
    (hrun : SetWithHashF fuel m hash key value = some (m', p, r)) : Inv m' := by
  obtain ⟨⟨kk, hk3, hlen⟩, hmask, hga, hsa, hocc, hle⟩ := hInv
  have hne : ¬ m.buckets.length = 0 := by
    rw [hlen]
    positivity
  unfold SetWithHashF at hrun
  rw [if_neg hne] at hrun
  obtain ⟨m₁, hstep, hset⟩ := Option.bind_eq_some.mp hrun
  have hsetF : setLoop fuel m₁ ⟨makeHDIB hash 1, key, value⟩
      ((⟨makeHDIB hash 1, key, value⟩ : Entry K V).hash &&& m₁.mask) =
      some (m', p, r) := hset
  obtain ⟨c1, c2, c3, c4, c5, c6, c7⟩ := setLoop_spec fuel m₁ _ _ m' p r hsetF
  by_cases hgrow : m.growAt ≤ m.length
  · rw [if_pos hgrow] at hstep
    obtain ⟨d1, d2, d3, d4, d5, d6, d7⟩ := resizeF_spec fuel m _ m₁ hstep
    have hsz2 : sizeFor (2 * m.buckets.length) = 2 ^ (kk + 1) := by
      rw [hlen]
      have h2 : 2 * 2 ^ kk = 2 ^ (kk + 1) := by ring
      rw [h2]
      exact sizeFor_two_pow (kk + 1) (by omega)
    refine ⟨⟨kk + 1, by omega, by rw [c5, d2, hsz2]⟩, ?_, ?_, ?_, ?_, ?_⟩
    · rw [c4, c5, d2, d3]
    · rw [c2, c5, d2, d4]
    · rw [c3, c5, d2, d5]
    · omega
    · have hlt : m₁.length < m₁.buckets.length := by
        rw [d2, hsz2]
        have : 2 ^ kk < 2 ^ (kk + 1) :=
          Nat.pow_lt_pow_right (by norm_num) (by omega)
        omega
      rw [c5]
      omega
  · rw [if_neg hgrow] at hstep
    have hm1 : m = m₁ := Option.some.inj hstep
    subst hm1
    push_neg at hgrow
    have hga_lt : m.growAt < m.buckets.length := by
      rw [hga]
      exact growAtF_lt _ (by rw [hlen]; positivity)
    refine ⟨⟨kk, hk3, by rw [c5, hlen]⟩, ?_, ?_, ?_, ?_, ?_⟩
    · rw [c4, c5, hmask]
    · rw [c2, c5, hga]
    · rw [c3, c5, hsa]
    · omega
    · rw [c5]
      omega

theorem bget_eq_get {K V : Type} [Inhabited K] [Inhabited V]
    {l : List (Entry K V)} {i : Nat} (h : i < l.length) :
    bget l i = l.get ⟨i, h⟩ := by
  simp [bget, List.getD_eq_getElem?_getD, List.getElem?_eq_getElem h, List.get_eq_getElem]

theorem occP_pos_of_occupied {K V : Type} [Inhabited K] [Inhabited V]
    {l : List (Entry K V)} {i : Nat} (h : i < l.length)
    (hd : (bget l i).dib ≠ 0) : 1 ≤ occP l := by
  unfold occP
  rw [Nat.one_le_iff_ne_zero]
  intro hz
  rw [List.countP_eq_zero] at hz
  refine hz (l.get ⟨i, h⟩) (List.get_mem l i h) ?_
  rw [← bget_eq_get h]
  simp [hd]

theorem removeF_Inv {K V : Type} [DecidableEq K] [Inhabited K] [Inhabited V]
    (fuel : Nat) (m : MapShard K V) (i : Nat) (m' : MapShard K V)
    (hInv : Inv m) (hi : (bget m.buckets i).dib ≠ 0)
    (hrun : removeF fuel m i = some m') : Inv m' := by
  obtain ⟨⟨kk, hk3, hlen⟩, hmask, hga, hsa, hocc, hle⟩ := hInv
  have hin : i < m.buckets.length := by
    by_contra hout
    push_neg at hout
    rw [bget_oob hout] at hi
    exact hi (dib_default)
  have hocc1 : 1 ≤ occP m.buckets := occP_pos_of_occupied hin hi
  unfold removeF at hrun
  obtain ⟨bk, hloop, hrest⟩ := Option.bind_eq_some.mp hrun
  have hbklen : bk.length = m.buckets.length := by
    have := removeLoop_length fuel _ m.mask i bk hloop
    simpa using this
  have hocc_bk : occP bk ≤ m.length - 1 := by
    refine removeLoop_occ m.mask (m.length - 1) fuel _ i bk hloop ?_
    have hbit0 : occBit (m.buckets.set i ((bget m.buckets i).setDIB 0)) i = 0 := by
      unfold occBit
      rw [bget_set_self hin, setDIB_dib]
      simp
    have hs := occP_set m.buckets i ((bget m.buckets i).setDIB 0) hin
    rw [if_neg (by rw [setDIB_dib]; simp)] at hs
    have hbit1 : occBit m.buckets i = 1 := by
      unfold occBit
      rw [if_pos hi]
    rw [hbit0]
    omega
  by_cases hcond : m.cap < bk.length ∧ m.length - 1 ≤ m.shrinkAt
  · rw [if_pos hcond] at hrest
    obtain ⟨d1, d2, d3, d4, d5, d6, d7⟩ := resizeF_spec fuel _ _ m' hrest
    obtain ⟨j, hjeq, hj3⟩ := sizeFor_pow (m.length - 1)
    refine ⟨⟨j, hj3, by rw [d2, hjeq]⟩, ?_, ?_, ?_, ?_, ?_⟩
    · rw [d3, d2]
    · rw [d4, d2]
    · rw [d5, d2]
    · exact d6
    · have hocc'' : occP ({ m with buckets := bk, length := m.length - 1 }).buckets ≤
          m.length - 1 := hocc_bk
      have hls := le_sizeFor (m.length - 1)
      omega
  · rw [if_neg hcond] at hrest
    have hm' : ({ m with buckets := bk, length := m.length - 1 } : MapShard K V) = m' :=
      Option.some.inj hrest
    subst hm'
    refine ⟨⟨kk, hk3, by rw [show ({ m with buckets := bk, length := m.length - 1 } :
        MapShard K V).buckets = bk from rfl, hbklen, hlen]⟩, ?_, ?_, ?_, ?_, ?_⟩
    · show m.mask = bk.length - 1
      rw [hbklen, hmask]
    · show m.growAt = growAtF bk.length
      rw [hbklen, hga]
    · show m.shrinkAt = shrinkAtF bk.length
      rw [hbklen, hsa]
    · exact hocc_bk
    · show m.length - 1 ≤ bk.length
      rw [hbklen]
      omega

theorem delLoop_Inv {K V : Type} [DecidableEq K] [Inhabited K] [Inhabited V] :
    ∀ (fuel : Nat) (m : MapShard K V) (i hash : Nat) (key : K)
      (m' : MapShard K V) (p : V) (r : Bool),
      delLoop fuel m i hash key = some (m', p, r) → Inv m → Inv m'
  | 0, _, _, _, _, _, _, _ => by intro h; exact absurd h (by simp [delLoop])
  | fuel + 1, m, i, hash, key, m', p, r => by
    intro h hInv
    unfold delLoop at h
    by_cases h0 : (bget m.buckets i).dib = 0
    · simp only [if_pos h0, Option.some.injEq] at h
      obtain ⟨hm, _, _⟩ := Prod.mk.injEq .. ▸ h
      subst hm
      exact hInv
    · simp only [if_neg h0] at h
      by_cases hmatch : (bget m.buckets i).hash = hash ∧ (bget m.buckets i).key = key
      · simp only [if_pos hmatch] at h
        obtain ⟨md, hrem, hfin⟩ := Option.map_eq_some'.mp h
        have hmd : md = m' := congrArg Prod.fst hfin
        rw [← hmd]
        exact removeF_Inv fuel m i md hInv h0 hrem
      · simp only [if_neg hmatch] at h
        exact delLoop_Inv fuel m _ hash key m' p r h hInv

theorem DeleteWithHashF_Inv {K V : Type} [DecidableEq K] [Inhabited K] [Inhabited V]
    (fuel : Nat) (m : MapShard K V) (hash : Nat) (key : K)
    (m' : MapShard K V) (p : V) (r : Bool) (hInv : Inv m)
    (hrun : DeleteWithHashF fuel m hash key = some (m', p, r)) : Inv m' := by
  unfold DeleteWithHashF at hrun
  by_cases hz : m.buckets.length = 0
  · rw [if_pos hz] at hrun
    obtain ⟨hm, _, _⟩ := Prod.mk.injEq .. ▸ (Option.some.inj hrun)
    subst hm
    exact hInv
  · rw [if_neg hz] at hrun
    exact delLoop_Inv fuel m _ hash key m' p r hrun hInv

/-- States of a shard table reachable from a freshly constructed table by
terminating `SetWithHash` / `DeleteWithHash` calls. -/
inductive ReachS {K V : Type} [DecidableEq K] [Inhabited K] [Inhabited V] :
    MapShard K V → Prop
  | base (cap : Nat) : ReachS (newShard cap)
  | set {m m' : MapShard K V} {p : V} {r : Bool} (fuel hash : Nat) (key : K)
      (value : V) : ReachS m →
      SetWithHashF fuel m hash key value = some (m', p, r) → ReachS m'
  | del {m m' : MapShard K V} {p : V} {r : Bool} (fuel hash : Nat) (key : K) :
      ReachS m →
      DeleteWithHashF fuel m hash key = some (m', p, r) → ReachS m'

theorem ReachS_Inv {K V : Type} [DecidableEq K] [Inhabited K] [Inhabited V]
    {m : MapShard K V} (h : ReachS m) : Inv m := by
  induction h with
  | base cap => exact newShard_Inv cap
  | set fuel hash key value _ hrun ih =>
    exact SetWithHashF_Inv fuel _ hash key value _ _ _ ih hrun
  | del fuel hash key _ hrun ih =>
    exact DeleteWithHashF_Inv fuel _ hash key _ _ _ ih hrun

/-! ## A concrete reachable full table

Start from `newShard(100)` (capacity hint 100, hence 128 buckets and
`shrinkAt = 19`), insert nine entries with hashes `0..8` (their home slots),
then delete the one with hash 0.  The removal leaves `length = 8 ≤ 19` with
`128 > 100`, so the code shrinks via `resize(8)`, whose `newShard(8)`
allocates exactly 8 buckets — and the 8 remaining entries fill it
completely. -/

def shardStep (m : MapShard Nat Nat) (k : Nat) : Option (MapShard Nat Nat) :=
  (SetWithHashF 400 m k k k).map Prod.fst

def shardOps10 : Option (MapShard Nat Nat) :=
  ((List.range 9).foldlM shardStep (newShard 100)).bind
    fun m => (DeleteWithHashF 400 m 0 0).map fun p => p.1

/-- The state `shardOps10` evaluates to: a completely full 8-bucket table. -/
def fullShard10 : MapShard Nat Nat :=
  { cap := 100
    length := 8
    growAt := 6
    shrinkAt := 1
    mask := 7
    buckets :=
      [⟨524289, 8, 8⟩, ⟨65537, 1, 1⟩, ⟨131073, 2, 2⟩, ⟨196609, 3, 3⟩,
        ⟨262145, 4, 4⟩, ⟨327681, 5, 5⟩, ⟨393217, 6, 6⟩, ⟨458753, 7, 7⟩] }

theorem shardOps10_eval : shardOps10 = some fullShard10 := by rfl

theorem reach_of_foldSets :
    ∀ (l : List Nat) (m₀ m : MapShard Nat Nat), ReachS m₀ →
      l.foldlM shardStep m₀ = some m → ReachS m
  | [], m₀, m => by
    intro h0 hf
    simp only [List.foldlM_nil, pure, Option.some.injEq] at hf
    subst hf
    exact h0
  | k :: t, m₀, m => by
    intro h0 hf
    simp only [List.foldlM_cons] at hf
    obtain ⟨m₁, hstep, hrest⟩ := Option.bind_eq_some.mp hf
    unfold shardStep at hstep
    obtain ⟨trip, htrip, hfst⟩ := Option.map_eq_some'.mp hstep
    subst hfst
    exact reach_of_foldSets t trip.1 m (ReachS.set 400 k k k h0 htrip) hrest

theorem fullShard10_reach : ReachS fullShard10 := by
  have h := shardOps10_eval
  unfold shardOps10 at h
  obtain ⟨m9, hfold, hdel⟩ := Option.bind_eq_some.mp h
  obtain ⟨trip, htrip, hfst⟩ := Option.map_eq_some'.mp hdel
  have h9 : ReachS m9 :=
    reach_of_foldSets (List.range 9) (newShard 100) m9 (ReachS.base 100) hfold
  have hr : ReachS trip.1 := ReachS.del 400 0 0 h9 htrip
  rw [hfst] at hr
  exact hr

/-! ## C10 — the length/occupancy invariant

The first conjunct of the claim (`length` = number of occupied buckets) and
the strict bound `length < buckets.length` both fail on reachable states;
`fullShard10` refutes strictness: the shrink in `remove` resizes to exactly
the new `length`, and when that length is itself a power of two (8 here) the
new table is completely full.  (On such a full table a lookup or delete of
an absent key never terminates — see the C6/C4 theorems.)  What does hold of
every reachable state is `occupied-count ≤ length ≤ buckets.length`. -/

/-- C10 (counterexample): a reachable shard-table state whose `length` field
equals the bucket-array length, refuting `length < buckets.length`. -/
theorem C10_counterexample :
    ReachS fullShard10 ∧ ¬ (fullShard10.length < fullShard10.buckets.length) :=
  ⟨fullShard10_reach, by decide⟩

/-- C10 (amended): in every shard-table state reachable from a freshly
constructed table by terminating `SetWithHash` and `DeleteWithHash` calls,
the `length` field is an upper bound on the number of buckets with nonzero
displacement, and is at most the bucket-array length (both bounds are
attained: a shrink can produce a completely full table, and an insertion
whose probe sequence reaches length `2^16` stores an entry whose
displacement field wraps to zero, incrementing `length` without adding an
occupied bucket). -/
theorem C10_amended_invariant {K V : Type} [DecidableEq K] [Inhabited K]
    [Inhabited V] (m : MapShard K V) (h : ReachS m) :
    occP m.buckets ≤ m.length ∧ m.length ≤ m.buckets.length :=
  ⟨(ReachS_Inv h).2.2.2.2.1, (ReachS_Inv h).2.2.2.2.2⟩

/-- C10 (witness for `C10_amended_invariant`). -/
theorem C10_amended_invariant_witness :
    occP (fullShard10 : MapShard Nat Nat).buckets ≤ fullShard10.length ∧
      fullShard10.length ≤ fullShard10.buckets.length :=
  C10_amended_invariant fullShard10 fullShard10_reach

/-! ## C2 — the shrink floor

`remove` shrinks with `resize(m.length)` whenever
`len(m.buckets) > m.cap && m.length <= m.shrinkAt`; the new size is
`sizeFor(new length)` — the smallest power of two that is `≥ 8` and covers
the new length — which has nothing to do with the original capacity hint.
The hint only gates *whether* the shrink fires, not the resulting size:
`fullShard10` above (8 buckets, hint 100) is reachable. -/

/-- C2 (counterexample): deleting down to `length 8` in a table with
capacity hint 100 (128 buckets) shrinks it to 8 buckets, far below the
hint. -/
theorem C2_counterexample :
    shardOps10 = some fullShard10 ∧
      fullShard10.buckets.length < fullShard10.cap :=
  ⟨shardOps10_eval, by decide⟩

/-- C2 (amended): when a successful removal leaves
`length - 1 ≤ shrink_at` on a table with `buckets.length > cap`, the table
is rebuilt with exactly `sizeFor (length - 1)` buckets — the smallest power
of two `≥ 8` covering the new length — and the capacity hint is preserved;
the result may be smaller than the hint (the hint only gates whether the
shrink happens at all). -/
theorem C2_amended_shrink {K V : Type} [DecidableEq K] [Inhabited K] [Inhabited V]
    (fuel : Nat) (m : MapShard K V) (i : Nat) (m' : MapShard K V)
    (hcap : m.cap < m.buckets.length) (hshr : m.length - 1 ≤ m.shrinkAt)
    (hrun : removeF fuel m i = some m') :
    m'.buckets.length = sizeFor (m.length - 1) ∧ m'.cap = m.cap := by
  unfold removeF at hrun
  obtain ⟨bk, hloop, hrest⟩ := Option.bind_eq_some.mp hrun
  have hbklen : bk.length = m.buckets.length := by
    have := removeLoop_length fuel _ m.mask i bk hloop
    simpa using this
  rw [if_pos ⟨by omega, hshr⟩] at hrest
  obtain ⟨d1, d2, _, _, _, _, _⟩ := resizeF_spec fuel _ _ m' hrest
  exact ⟨d2, d1⟩

/-- The table just before the deletion that produces `fullShard10`:
128 buckets, hint 100, nine entries at their home slots. -/
def preShard9 : MapShard Nat Nat :=
  ((List.range 9).foldlM shardStep (newShard 100)).getD (newShard 100)

/-- C2 (witness for `C2_amended_shrink`): the removal step that produces
`fullShard10` from `preShard9`. -/
theorem C2_amended_shrink_witness :
    removeF 400 preShard9 0 = some fullShard10 ∧
      fullShard10.buckets.length = sizeFor (preShard9.length - 1) ∧
      fullShard10.cap = preShard9.cap := by
  have hrun : removeF 400 preShard9 0 = some fullShard10 := by rfl
  have h := C2_amended_shrink 400 preShard9 0 fullShard10 (by decide) (by decide) hrun
  exact ⟨hrun, h.1, h.2⟩

/-! ## C6 / C4 — non-termination on a reachable full table

Map-level counterpart of `fullShard10`: `Map` with `cap = 1600` and 16
shards (`scap = 100` per shard), hasher `k ↦ k << 16` (all keys route to
shard 0 with intra-shard hash `k`).  After nine `Set`s and one `Delete`,
shard 0 is the completely full 8-bucket table.  A `Delete` (or
`DeleteAccept`) of the absent key 9 then scans `hash & 7 = 1, 2, 3, …`
forever: every bucket is occupied (`dib ≠ 0`) and none matches hash 9, so
the loop never reaches its only two exits.  In the fuel model: the result is
`none` for every fuel. -/

def mapStep (m : ShardMap Nat Nat) (k : Nat) : Option (ShardMap Nat Nat) :=
  (SetM 400 m k k).map Prod.fst

def mapOps9 : Option (ShardMap Nat Nat) :=
  ((List.range 9).foldlM mapStep (mkMap 16 1600 (fun k => k <<< 16))).bind
    fun m => (DeleteM 400 m 0).map Prod.fst

def fullMap9 : ShardMap Nat Nat :=
  { shards := 16
    shardIDMax := 15
    cap := 1600
    tables := fullShard10 :: List.replicate 15 (newShard 100)
    hasher := fun k => k <<< 16 }

theorem mapOps9_eval : mapOps9 = some fullMap9 := by rfl

/-- Every bucket of `fullShard10` is occupied and stores a hash other
than 9. -/
theorem fullShard10_blocks :
    ∀ i, i < 8 →
      (bget fullShard10.buckets i).dib ≠ 0 ∧
        ¬((bget fullShard10.buckets i).hash = 9 ∧
          (bget fullShard10.buckets i).key = 9) ∧
        (i + 1) &&& fullShard10.mask < 8 := by
  decide

theorem delLoop_full_none :
    ∀ (fuel i : Nat), i < 8 → delLoop fuel fullShard10 i 9 9 = none
  | 0, _, _ => rfl
  | fuel + 1, i, hi => by
    obtain ⟨h1, h2, h3⟩ := fullShard10_blocks i hi
    unfold delLoop
    rw [if_neg h1, if_neg h2]
    exact delLoop_full_none fuel _ h3

theorem DeleteWithHashF_full_none (fuel : Nat) :
    DeleteWithHashF fuel fullShard10 9 9 = none := by
  unfold DeleteWithHashF
  rw [if_neg (by decide)]
  exact delLoop_full_none fuel _ (by decide)

/-- C6 (code bug): the map state `fullMap9` is reachable (nine `Set`s and
one `Delete` from a 16-shard map with capacity hint 1600), key 9 is absent
from it, yet `Delete(9)` does not return `(default, false)` — it never
returns at all: for every fuel the model yields `none`, mirroring the
unbounded scan of the full shard. -/
theorem C6_delete_absent_diverges :
    mapOps9 = some fullMap9 ∧ ∀ fuel : Nat, DeleteM fuel fullMap9 9 = none := by
  refine ⟨mapOps9_eval, fun fuel => ?_⟩
  simp only [DeleteM]
  rw [show DeleteWithHashF fuel (tbl fullMap9 (choose fullMap9 9).1)
      (choose fullMap9 9).2 9 = none from DeleteWithHashF_full_none fuel]
  rfl

/-- C4 (code bug): on the reachable state `fullMap9`, `DeleteAccept` of the
absent key 9 — with any `accept` function, or none — never returns (its
initial tentative `DeleteWithHash` scans the full shard forever), so neither
the claimed rejection result `(default, false)` nor the Delete-equivalent
behaviour is delivered. -/
theorem C4_deleteAccept_diverges :
    mapOps9 = some fullMap9 ∧
      ∀ (fuel : Nat) (accept : Option (Nat → Bool → Bool)),
        DeleteAcceptM fuel fullMap9 9 accept = none := by
  refine ⟨mapOps9_eval, fun fuel accept => ?_⟩
  simp only [DeleteAcceptM]
  rw [show DeleteWithHashF fuel (tbl fullMap9 (choose fullMap9 9).1)
      (choose fullMap9 9).2 9 = none from DeleteWithHashF_full_none fuel]
  rfl

/-! ## C7 — termination of the insert probe loop -/

/-- Stepping a nonzero distance `D < n` forward (mod `n`) moves off the
start slot. -/
theorem add_mod_ne_self {i D n : Nat} (hi : i < n) (hD : D < n) (hD0 : D ≠ 0) :
    (i + D) % n ≠ i := by
  have hsplit : (i + D < n ∧ (i + D) % n = i + D) ∨
      (n ≤ i + D ∧ (i + D) % n = i + D - n) := by
    by_cases hc : i + D < n
    · exact Or.inl ⟨hc, Nat.mod_eq_of_lt hc⟩
    · refine Or.inr ⟨by omega, ?_⟩
      rw [Nat.mod_eq_sub_mod (by omega)]
      exact Nat.mod_eq_of_lt (by omega)
  omega

/-- If some slot at forward distance `D` from `i` is empty, the probe loop
with more than `D` steps of fuel returns.  The swaps performed along the way
never change which slots are occupied, so the empty slot survives until the
walk reaches it (the walk may also exit even earlier, at an empty slot or a
key match). -/
theorem setLoop_some_of_empty {K V : Type} [DecidableEq K] [Inhabited K]
    [Inhabited V] (s : Nat) :
    ∀ (D fuel : Nat) (m : MapShard K V) (e : Entry K V) (i : Nat),
      m.mask = 2 ^ s - 1 → m.buckets.length = 2 ^ s →
      i < 2 ^ s → D < 2 ^ s → D < fuel →
      (bget m.buckets ((i + D) % 2 ^ s)).dib = 0 →
      (setLoop fuel m e i).isSome := by
  intro D
  induction D with
  | zero =>
    intro fuel m e i hmask hlen hi _ hf hempty
    match fuel, hf with
    | fuel + 1, _ =>
      rw [Nat.add_zero, Nat.mod_eq_of_lt hi] at hempty
      unfold setLoop
      rw [if_pos hempty]
      simp
  | succ D ih =>
    intro fuel m e i hmask hlen hi hDlt hf hempty
    match fuel, hf with
    | fuel + 1, _ =>
      unfold setLoop
      by_cases h0 : (bget m.buckets i).dib = 0
      · rw [if_pos h0]
        simp
      · rw [if_neg h0]
        by_cases hmatch : e.hash = (bget m.buckets i).hash ∧ e.key = (bget m.buckets i).key
        · rw [if_pos hmatch]
          simp
        · rw [if_neg hmatch]
          have hlenpos : (0 : Nat) < 2 ^ s := by positivity
          have hij : (i + (D + 1)) % 2 ^ s ≠ i := add_mod_ne_self hi hDlt (by omega)
          have hmaskmod : ∀ x : Nat, x &&& m.mask = x % 2 ^ s := by
            intro x
            rw [hmask, Nat.and_pow_two_sub_one_eq_mod]
          have hi' : (i + 1) &&& m.mask < 2 ^ s := by
            rw [hmaskmod]
            exact Nat.mod_lt _ hlenpos
          have htarget : (((i + 1) &&& m.mask) + D) % 2 ^ s = (i + (D + 1)) % 2 ^ s := by
            rw [hmaskmod, Nat.mod_add_mod]
            congr 1
            omega
          by_cases hswap : (bget m.buckets i).dib < e.dib
          · simp only [if_pos hswap]
            refine ih fuel { m with buckets := m.buckets.set i e } _ ((i + 1) &&& m.mask)
              hmask (by simp [hlen]) hi' (by omega) (by omega) ?_
            show (bget (m.buckets.set i e) ((((i + 1) &&& m.mask) + D) % 2 ^ s)).dib = 0
            rw [htarget, bget_set_ne (fun hc => hij hc.symm)]
            exact hempty
          · simp only [if_neg hswap]
            refine ih fuel m _ ((i + 1) &&& m.mask)
              hmask hlen hi' (by omega) (by omega) ?_
            show (bget m.buckets ((((i + 1) &&& m.mask) + D) % 2 ^ s)).dib = 0
            rw [htarget]
            exact hempty

/-- A table whose occupancy count is below its bucket count has an empty
slot. -/
theorem exists_empty_slot {K V : Type} [Inhabited K] [Inhabited V]
    (m : MapShard K V) (hocc : occP m.buckets < m.buckets.length) :
    ∃ j, j < m.buckets.length ∧ (bget m.buckets j).dib = 0 := by
  by_contra hno
  push_neg at hno
  have hall : ∀ a ∈ m.buckets, (fun e : Entry K V => decide (e.dib ≠ 0)) a = true := by
    intro a ha
    obtain ⟨n, hn⟩ := List.mem_iff_get.mp ha
    have := hno n.1 n.2
    rw [bget_eq_get n.2, hn] at this
    simpa using this
  have : occP m.buckets = m.buckets.length := by
    unfold occP
    exact List.countP_eq_length.mpr hall
  omega

/-- C7: the Robin Hood insertion probe loop terminates within
`buckets.length` steps whenever the table's `length` field is strictly below
the bucket-array length (together with the maintained invariant that
`length` bounds the occupancy count, this guarantees an empty slot, which
the forward walk — whose swaps never alter slot occupancy — must reach
within `buckets.length` steps unless it exits even earlier at an empty slot
or a matching key). -/
theorem C7_insert_probe_terminates {K V : Type} [DecidableEq K] [Inhabited K]
    [Inhabited V] (m : MapShard K V) (e : Entry K V) (i s : Nat)
    (hpow : m.buckets.length = 2 ^ s) (hmask : m.mask = m.buckets.length - 1)
    (hocc : occP m.buckets ≤ m.length) (hlt : m.length < m.buckets.length)
    (hi : i < m.buckets.length) :
    (setLoop m.buckets.length m e i).isSome := by
  obtain ⟨j, hj, hjz⟩ := exists_empty_slot m (by omega)
  have hlenpos : (0 : Nat) < 2 ^ s := by positivity
  rw [hpow] at hj hi ⊢
  refine setLoop_some_of_empty s ((j + (2 ^ s - i)) % 2 ^ s) (2 ^ s) m e i
    (by rw [hmask, hpow]) hpow hi (Nat.mod_lt _ hlenpos) (Nat.mod_lt _ hlenpos) ?_
  have h2 : i + (j + (2 ^ s - i)) = j + 2 ^ s := by omega
  rw [Nat.add_mod_mod, h2, Nat.add_mod_right, Nat.mod_eq_of_lt hj]
  exact hjz

/-- C7 (witness for `C7_insert_probe_terminates`). -/
theorem C7_insert_probe_terminates_witness :
    (setLoop (newShard 0 : MapShard Nat Nat).buckets.length (newShard 0)
      ⟨makeHDIB 5 1, 1, 1⟩ 3).isSome :=
  C7_insert_probe_terminates (newShard 0) ⟨makeHDIB 5 1, 1, 1⟩ 3 3
    (by decide) (by decide) (by decide) (by decide) (by decide)

/-! ## C3 / C5 — the 16-bit displacement wraparound loses an entry

The displacement lives in the low 16 bits of `hdib`; `e.setDIB(e.dib()+1)`
computes `dib & maxDIB`, so a probe sequence of length `2^16` wraps the
candidate's displacement to 0 and the entry is *stored as empty*: the insert
reports success and increments `length`, but no lookup can ever see the
entry.

Concrete family: a table of `2^17` buckets (capacity hint `131072`,
`growAt = 111411`), holding `n` entries with hashes `j·2^17` (`j < n`) — all
with home bucket 0, packed in slots `0..n-1` with displacement `j+1`.
Inserting key `n` glides over the run (equal displacements, so no Robin Hood
swap; distinct hashes, so no match) and lands in slot `n` with displacement
`(n+1) mod 2^16` — which for `n = 65535` is 0. -/

/-- The entry stored in slot `j` of the packed-run family. -/
def entryR (j : Nat) : Entry Nat Nat :=
  ⟨makeHDIB (j * 2 ^ 17) (j + 1), j, j⟩

/-- The packed-run table after `n` same-home inserts (`n ≤ 65536`; at
`n = 65536` slot `65535` holds the wrapped, invisible entry). -/
def R (n : Nat) : MapShard Nat Nat :=
  { cap := 131072
    length := n
    growAt := growAtF 131072
    shrinkAt := shrinkAtF 131072
    mask := 131071
    buckets := (List.range 131072).map fun j => if j < n then entryR j else default }

/-- The probing candidate for key `n` at probe position `j`. -/
def candR (n j : Nat) : Entry Nat Nat :=
  ⟨makeHDIB (n * 2 ^ 17) (j + 1), n, n⟩

theorem R_len (n : Nat) : (R n).buckets.length = 131072 := by
  simp [R]

theorem R_buckets (n : Nat) :
    (R n).buckets =
      (List.range 131072).map fun j => if j < n then entryR j else default := by
  have h : R n = ⟨131072, n, growAtF 131072, shrinkAtF 131072, 131071,
      (List.range 131072).map fun j => if j < n then entryR j else default⟩ := rfl
  rw [h]

theorem getD_range_map {α : Type} [Inhabited α] (N : Nat) (f : Nat → α)
    {j : Nat} (hj : j < N) : ((List.range N).map f).getD j default = f j := by
  rw [List.getD_eq_getElem?_getD, List.getElem?_map, List.getElem?_range hj]
  rfl

theorem R_bget (n : Nat) {j : Nat} (hj : j < 131072) :
    bget (R n).buckets j = if j < n then entryR j else default := by
  unfold bget
  rw [R_buckets]
  exact getD_range_map 131072 _ hj

theorem entryR_dib (j : Nat) : (entryR j).dib = (j + 1) % 2 ^ 16 :=
  makeHDIB_dib _ _ _ _

theorem entryR_hash (j : Nat) (hj : j ≤ 65535) : (entryR j).hash = j * 2 ^ 17 := by
  show (entryR j).hash = j * 2 ^ 17
  rw [entryR, makeHDIB_hash]
  have : j * 2 ^ 17 < 2 ^ 48 := by
    have h17 : (2 : Nat) ^ 17 = 131072 := by norm_num
    have h48 : (2 : Nat) ^ 48 = 281474976710656 := by norm_num
    rw [h17, h48]
    omega
  exact Nat.mod_eq_of_lt this

theorem candR_dib (n j : Nat) : (candR n j).dib = (j + 1) % 2 ^ 16 :=
  makeHDIB_dib _ _ _ _

theorem candR_hash (n j : Nat) (hn : n ≤ 65535) : (candR n j).hash = n * 2 ^ 17 := by
  rw [candR, makeHDIB_hash]
  have : n * 2 ^ 17 < 2 ^ 48 := by
    have h17 : (2 : Nat) ^ 17 = 131072 := by norm_num
    have h48 : (2 : Nat) ^ 48 = 281474976710656 := by norm_num
    rw [h17, h48]
    omega
  exact Nat.mod_eq_of_lt this

/-- Every entry's packed word is its hash and displacement fields
recombined. -/
theorem hdib_decomp {K V : Type} (e : Entry K V) :
    e.hdib = e.hash * 2 ^ 16 + e.dib := by
  rw [Entry.hash, Entry.dib, and_maxDIB]
  show e.hdib = e.hdib >>> 16 * 2 ^ 16 + e.hdib % 2 ^ 16
  rw [Nat.shiftRight_eq_div_pow]
  omega

/-- Advancing the candidate's displacement by one step of the walk. -/
theorem setDIB_candR (n j : Nat) (hn : n ≤ 65535) (hj : j + 1 < 2 ^ 16) :
    (candR n j).setDIB ((candR n j).dib + 1) = candR n (j + 1) := by
  have h1 : n * 2 ^ 17 % 2 ^ 48 = n * 2 ^ 17 := by
    have h17 : (2 : Nat) ^ 17 = 131072 := by norm_num
    have h48 : (2 : Nat) ^ 48 = 281474976710656 := by norm_num
    rw [h17, h48]
    exact Nat.mod_eq_of_lt (by omega)
  have hdib : ((candR n j).setDIB ((candR n j).dib + 1)).hdib = (candR n (j + 1)).hdib := by
    rw [hdib_decomp ((candR n j).setDIB ((candR n j).dib + 1)), setDIB_hash, setDIB_dib,
      candR_hash n j hn, candR_dib, Nat.mod_eq_of_lt hj, h1]
    show n * 2 ^ 17 * 2 ^ 16 + (j + 1 + 1) % 2 ^ 16 = (candR n (j + 1)).hdib
    rw [candR, makeHDIB_eq, h1]
  show Entry.mk ((candR n j).setDIB ((candR n j).dib + 1)).hdib n n = candR n (j + 1)
  rw [hdib]
  rfl

theorem R_set_eq (n : Nat) (hn : n < 131072) :
    (R n).buckets.set n (entryR n) = (R (n + 1)).buckets := by
  rw [R_buckets, R_buckets]
  apply List.ext_getElem
  · simp
  · intro i h1 h2
    have hi : i < 131072 := by simpa using h2
    rw [List.getElem_set]
    simp only [List.getElem_map, List.getElem_range]
    by_cases hni : n = i
    · rw [if_pos hni, if_pos (by omega), hni]
    · rw [if_neg hni]
      by_cases hlt : i < n
      · rw [if_pos hlt, if_pos (by omega)]
      · rw [if_neg hlt, if_neg (by omega)]

/-- The table after the empty-slot placement of the glide is `R (n+1)`. -/
theorem R_insert_eq (n : Nat) (hn : n < 131072) :
    MapShard.mk (R n).cap ((R n).length + 1) (R n).growAt (R n).shrinkAt (R n).mask
      ((R n).buckets.set n (entryR n)) = R (n + 1) := by
  have hx : ∀ b : List (Entry Nat Nat), (MapShard.mk (R n).cap ((R n).length + 1)
      (R n).growAt (R n).shrinkAt (R n).mask b).buckets = b := fun _ => rfl
  apply MapShard.ext
  · rfl
  · rfl
  · rfl
  · rfl
  · rfl
  · rw [hx ((R n).buckets.set n (entryR n))]
    exact R_set_eq n hn

theorem growAtF_131072 : growAtF 131072 = 111411 := by decide

/-- The glide of the insert walk over the packed run: starting at probe
position `j` with the position-`j` candidate, the walk crosses the
remaining `n - j` occupied slots (equal displacements forbid a swap,
distinct hashes forbid a match) and places the candidate in the empty slot
`n`, yielding exactly `R (n+1)` — also when `n = 65535`, where the stored
displacement has wrapped to 0. -/
theorem setLoop_R (n : Nat) (hn : n ≤ 65535) :
    ∀ (d j fuel : Nat), j + d = n → d < fuel →
      setLoop fuel (R n) (candR n j) j = some (R (n + 1), 0, false) := by
  intro d
  induction d with
  | zero =>
    intro j fuel hj hf
    have hjn : j = n := by omega
    rw [hjn]
    match fuel, hf with
    | fuel + 1, _ =>
      have hbn : bget (R n).buckets n = default := by
        rw [R_bget n (by omega : n < 131072), if_neg (Nat.lt_irrefl n)]
      unfold setLoop
      rw [hbn, if_pos (dib_default)]
      rw [show candR n n = entryR n from rfl, R_insert_eq n (by omega)]
      rfl
  | succ d ih =>
    intro j fuel hj hf
    have hjn : j < n := by omega
    match fuel, hf with
    | fuel + 1, _ =>
      have hb : bget (R n).buckets j = entryR j := by
        rw [R_bget n (by omega : j < 131072), if_pos hjn]
      have hdibj : (entryR j).dib = j + 1 := by
        rw [entryR_dib]
        exact Nat.mod_eq_of_lt (by omega)
      have h0 : ¬ (entryR j).dib = 0 := by omega
      have hne : ¬((candR n j).hash = (entryR j).hash ∧ (candR n j).key = (entryR j).key) := by
        intro hc
        have h1 := hc.1
        rw [candR_hash n j hn, entryR_hash j (by omega)] at h1
        have h17 : (2 : Nat) ^ 17 = 131072 := by norm_num
        rw [h17] at h1
        omega
      have hnoswap : ¬ (entryR j).dib < (candR n j).dib := by
        rw [hdibj, candR_dib, Nat.mod_eq_of_lt (by omega : j + 1 < 2 ^ 16)]
        omega
      unfold setLoop
      rw [hb]
      rw [if_neg h0, if_neg hne]
      simp only [if_neg hnoswap]
      rw [setDIB_candR n j hn (by omega)]
      have hidx : (j + 1) &&& (R n).mask = j + 1 := by
        show (j + 1) &&& 131071 = j + 1
        rw [show (131071 : Nat) = 2 ^ 17 - 1 by norm_num, Nat.and_pow_two_sub_one_eq_mod]
        exact Nat.mod_eq_of_lt (by omega)
      rw [hidx]
      exact ih (j + 1) fuel (by omega) (by omega)

/-- The `SetWithHash` call that performs the `(n+1)`-st same-home insert. -/
theorem SetWithHashF_R (n : Nat) (hn : n ≤ 65535) :
    SetWithHashF 131072 (R n) (n * 2 ^ 17) n n = some (R (n + 1), 0, false) := by
  unfold SetWithHashF
  have hz : ¬ (R n).buckets.length = 0 := by rw [R_len]; omega
  simp only [if_neg hz]
  have hgrow : ¬ (R n).growAt ≤ (R n).length := by
    show ¬ growAtF 131072 ≤ n
    rw [growAtF_131072]
    omega
  rw [if_neg hgrow]
  show setLoop 131072 (R n) (candR n 0) ((candR n 0).hash &&& (R n).mask) =
    some (R (n + 1), 0, false)
  have hidx : (candR n 0).hash &&& (R n).mask = 0 := by
    rw [candR_hash n 0 hn]
    show n * 2 ^ 17 &&& 131071 = 0
    rw [show (131071 : Nat) = 2 ^ 17 - 1 by norm_num, Nat.and_pow_two_sub_one_eq_mod,
      Nat.mul_mod_left]
  rw [hidx]
  exact setLoop_R n hn n 0 131072 (by omega) (by omega)

/-- Displacement of the final stored entry: the walk of length `2^16` has
wrapped it to 0, so the stored entry is indistinguishable from an empty
slot. -/
theorem entryR_65535_dib : (entryR 65535).dib = 0 := by
  rw [entryR_dib]
  norm_num

/-- The lookup walk over the packed run of `R 65536`: probing for hash
`65535·2^17` / key `65535` crosses the occupied slots `j < 65535` (nonzero
displacement, different hash) and stops at slot `65535`, whose stored entry
has displacement 0 — the loop treats it as empty and reports *not found*,
even though the entry for key `65535` is physically there. -/
theorem getLoop_R :
    ∀ (d j fuel : Nat), j + d = 65535 → d < fuel →
      getLoop fuel (R 65536) j (65535 * 2 ^ 17) 65535 = some ((0 : Nat), false) := by
  intro d
  induction d with
  | zero =>
    intro j fuel hj hf
    have hjn : j = 65535 := by omega
    rw [hjn]
    match fuel, hf with
    | fuel + 1, _ =>
      have hb : bget (R 65536).buckets 65535 = entryR 65535 := by
        rw [R_bget 65536 (by omega : (65535 : Nat) < 131072), if_pos (by omega)]
      unfold getLoop
      rw [hb, if_pos entryR_65535_dib]
      rfl
  | succ d ih =>
    intro j fuel hj hf
    have hjn : j < 65535 := by omega
    match fuel, hf with
    | fuel + 1, _ =>
      have hb : bget (R 65536).buckets j = entryR j := by
        rw [R_bget 65536 (by omega : j < 131072), if_pos (by omega)]
      have hdibj : (entryR j).dib = j + 1 := by
        rw [entryR_dib]
        exact Nat.mod_eq_of_lt (by omega)
      have h0 : ¬ (entryR j).dib = 0 := by omega
      have hne : ¬((entryR j).hash = 65535 * 2 ^ 17 ∧ (entryR j).key = 65535) := by
        intro hc
        have h1 := hc.1
        rw [entryR_hash j (by omega)] at h1
        have h17 : (2 : Nat) ^ 17 = 131072 := by norm_num
        rw [h17] at h1
        omega
      unfold getLoop
      rw [hb, if_neg h0, if_neg hne]
      have hidx : (j + 1) &&& (R 65536).mask = j + 1 := by
        show (j + 1) &&& 131071 = j + 1
        rw [show (131071 : Nat) = 2 ^ 17 - 1 by norm_num, Nat.and_pow_two_sub_one_eq_mod]
        exact Nat.mod_eq_of_lt (by omega)
      rw [hidx]
      exact ih (j + 1) fuel (by omega) (by omega)

/-- The deletion walk over the packed run of `R 65536` stops at the same
wrapped slot and reports *not deleted*, leaving the table unchanged. -/
theorem delLoop_R :
    ∀ (d j fuel : Nat), j + d = 65535 → d < fuel →
      delLoop fuel (R 65536) j (65535 * 2 ^ 17) 65535
        = some (R 65536, (0 : Nat), false) := by
  intro d
  induction d with
  | zero =>
    intro j fuel hj hf
    have hjn : j = 65535 := by omega
    rw [hjn]
    match fuel, hf with
    | fuel + 1, _ =>
      have hb : bget (R 65536).buckets 65535 = entryR 65535 := by
        rw [R_bget 65536 (by omega : (65535 : Nat) < 131072), if_pos (by omega)]
      unfold delLoop
      rw [hb, if_pos entryR_65535_dib]
      rfl
  | succ d ih =>
    intro j fuel hj hf
    have hjn : j < 65535 := by omega
    match fuel, hf with
    | fuel + 1, _ =>
      have hb : bget (R 65536).buckets j = entryR j := by
        rw [R_bget 65536 (by omega : j < 131072), if_pos (by omega)]
      have hdibj : (entryR j).dib = j + 1 := by
        rw [entryR_dib]
        exact Nat.mod_eq_of_lt (by omega)
      have h0 : ¬ (entryR j).dib = 0 := by omega
      have hne : ¬((entryR j).hash = 65535 * 2 ^ 17 ∧ (entryR j).key = 65535) := by
        intro hc
        have h1 := hc.1
        rw [entryR_hash j (by omega)] at h1
        have h17 : (2 : Nat) ^ 17 = 131072 := by norm_num
        rw [h17] at h1
        omega
      unfold delLoop
      rw [hb, if_neg h0, if_neg hne]
      have hidx : (j + 1) &&& (R 65536).mask = j + 1 := by
        show (j + 1) &&& 131071 = j + 1
        rw [show (131071 : Nat) = 2 ^ 17 - 1 by norm_num, Nat.and_pow_two_sub_one_eq_mod]
        exact Nat.mod_eq_of_lt (by omega)
      rw [hidx]
      exact ih (j + 1) fuel (by omega) (by omega)

theorem GetWithHashF_R65536 :
    GetWithHashF 131072 (R 65536) (65535 * 2 ^ 17) 65535 = some ((0 : Nat), false) := by
  unfold GetWithHashF
  have hz : ¬ (R 65536).buckets.length = 0 := by rw [R_len]; omega
  rw [if_neg hz]
  have hidx : 65535 * 2 ^ 17 &&& (R 65536).mask = 0 := by
    show 65535 * 2 ^ 17 &&& 131071 = 0
    rw [show (131071 : Nat) = 2 ^ 17 - 1 by norm_num, Nat.and_pow_two_sub_one_eq_mod,
      Nat.mul_mod_left]
  rw [hidx]
  exact getLoop_R 65535 0 131072 (by omega) (by omega)

theorem DeleteWithHashF_R65536 :
    DeleteWithHashF 131072 (R 65536) (65535 * 2 ^ 17) 65535
      = some (R 65536, (0 : Nat), false) := by
  unfold DeleteWithHashF
  have hz : ¬ (R 65536).buckets.length = 0 := by rw [R_len]; omega
  rw [if_neg hz]
  have hidx : 65535 * 2 ^ 17 &&& (R 65536).mask = 0 := by
    show 65535 * 2 ^ 17 &&& 131071 = 0
    rw [show (131071 : Nat) = 2 ^ 17 - 1 by norm_num, Nat.and_pow_two_sub_one_eq_mod,
      Nat.mul_mod_left]
  rw [hidx]
  exact delLoop_R 65535 0 131072 (by omega) (by omega)

/-! ### Lifting the wraparound trace to the map level

The full map: 16 shards, capacity hint `2097152` (`131072` per shard), and a
hasher sending key `k` to the digest `k·2^33` — so every key routes to shard
0 (low 4 bits zero) with intra-shard hash `k·2^17` (home bucket 0 of the
`2^17`-bucket shard). -/

/-- The digest function of the counterexample family (a legitimate 64-bit
hasher for keys below `2^31`). -/
def hasherR (k : Nat) : Nat := k <<< 33

/-- The map after `n` inserts of the keys `0..n-1`. -/
def MR (n : Nat) : ShardMap Nat Nat :=
  { shards := 16
    shardIDMax := 15
    cap := 2097152
    tables := R n :: List.replicate 15 (R 0)
    hasher := hasherR }

theorem newShard_eq_R0 : (newShard 131072 : MapShard Nat Nat) = R 0 := by
  have h1 : (newShard 131072 : MapShard Nat Nat)
      = ⟨131072, 0, growAtF 131072, shrinkAtF 131072, 131071,
         List.replicate 131072 default⟩ := rfl
  have h2 : R 0 = ⟨131072, 0, growAtF 131072, shrinkAtF 131072, 131071,
      (List.range 131072).map fun j => if j < 0 then entryR j else default⟩ := rfl
  rw [h1, h2]
  have h3 : List.replicate 131072 (default : Entry Nat Nat)
      = (List.range 131072).map fun j => if j < 0 then entryR j else default := by
    apply List.ext_getElem
    · rw [List.length_replicate, List.length_map, List.length_range]
    · intro i hi1 hi2
      rw [List.getElem_replicate, List.getElem_map, List.getElem_range,
        if_neg (Nat.not_lt_zero i)]
  rw [h3]

theorem mkMap_eq_MR0 : (mkMap 16 2097152 hasherR : ShardMap Nat Nat) = MR 0 := by
  have h1 : (mkMap 16 2097152 hasherR : ShardMap Nat Nat)
      = ⟨16, 15, 2097152, List.replicate 16 (newShard 131072), hasherR⟩ := rfl
  have h2 : MR 0 = ⟨16, 15, 2097152, R 0 :: List.replicate 15 (R 0), hasherR⟩ := rfl
  rw [h1, h2, newShard_eq_R0]
  rfl

theorem MR_tables (n : Nat) :
    (MR n).tables = R n :: List.replicate 15 (R 0) := by
  have h : MR n = ⟨16, 15, 2097152, R n :: List.replicate 15 (R 0), hasherR⟩ := rfl
  rw [h]

theorem choose_MR (n k : Nat) : choose (MR n) k = (0, k * 2 ^ 17) := by
  unfold choose
  have hh : (MR n).hasher k = k * 2 ^ 33 := by
    show hasherR k = k * 2 ^ 33
    unfold hasherR
    exact Nat.shiftLeft_eq k 33
  rw [hh]
  have h1 : k * 2 ^ 33 &&& (MR n).shardIDMax = 0 := by
    show k * 2 ^ 33 &&& 15 = 0
    rw [show (15 : Nat) = 2 ^ 4 - 1 by norm_num, Nat.and_pow_two_sub_one_eq_mod]
    have h : k * 2 ^ 33 = k * 2 ^ 29 * 2 ^ 4 := by ring
    rw [h, Nat.mul_mod_left]
  have h2 : makeHash (k * 2 ^ 33) = k * 2 ^ 17 := by
    unfold makeHash dibBitSize
    rw [Nat.shiftRight_eq_div_pow]
    have h33 : (2 : Nat) ^ 33 = 8589934592 := by norm_num
    have h16 : (2 : Nat) ^ 16 = 65536 := by norm_num
    have h17 : (2 : Nat) ^ 17 = 131072 := by norm_num
    rw [h33, h16, h17]
    omega
  rw [h1, h2]

theorem tbl_MR (n : Nat) : tbl (MR n) 0 = R n := by
  unfold tbl
  rw [MR_tables]
  rfl

/-- Writing back the updated shard 0 yields the next map state. -/
theorem MR_insert_eq (n : Nat) :
    ShardMap.mk (MR n).shards (MR n).shardIDMax (MR n).cap
      ((MR n).tables.set 0 (R (n + 1))) (MR n).hasher = MR (n + 1) := by
  rw [MR_tables n, List.set_cons_zero]
  rfl

/-- Writing back an unchanged shard 0 leaves the map state unchanged. -/
theorem MR_set_self (n : Nat) :
    ShardMap.mk (MR n).shards (MR n).shardIDMax (MR n).cap
      ((MR n).tables.set 0 (R n)) (MR n).hasher = MR n := by
  rw [MR_tables n, List.set_cons_zero]
  rfl

/-- One map-level `Set` of key `n` on the `n`-key map: reported as a fresh,
successful insert. -/
theorem SetM_MR (n : Nat) (hn : n ≤ 65535) :
    SetM 131072 (MR n) n n = some (MR (n + 1), (0 : Nat), false) := by
  have hc1 : (choose (MR n) n).1 = 0 := by rw [choose_MR]
  have hc2 : (choose (MR n) n).2 = n * 2 ^ 17 := by rw [choose_MR]
  simp only [SetM]
  rw [hc1, hc2, tbl_MR, SetWithHashF_R n hn]
  simp only [Option.map_some']
  rw [MR_insert_eq n]

/-- Map-level `Get` of key `65535` right after its successful `Set`: not
found. -/
theorem GetM_MR65536 : GetM 131072 (MR 65536) 65535 = some ((0 : Nat), false) := by
  have hc1 : (choose (MR 65536) 65535).1 = 0 := by rw [choose_MR]
  have hc2 : (choose (MR 65536) 65535).2 = 65535 * 2 ^ 17 := by rw [choose_MR]
  simp only [GetM]
  rw [hc1, hc2, tbl_MR, GetWithHashF_R65536]

/-- Map-level `Delete` of key `65535` on the 65536-key map: reports *not
deleted* and leaves the map unchanged. -/
theorem DeleteM_MR65536 :
    DeleteM 131072 (MR 65536) 65535 = some (MR 65536, (0 : Nat), false) := by
  have hc1 : (choose (MR 65536) 65535).1 = 0 := by rw [choose_MR]
  have hc2 : (choose (MR 65536) 65535).2 = 65535 * 2 ^ 17 := by rw [choose_MR]
  simp only [DeleteM]
  rw [hc1, hc2, tbl_MR, DeleteWithHashF_R65536]
  simp only [Option.map_some']
  rw [MR_set_self 65536]

/-- One step of the 65536-insert driver. -/
def mapStepR (m : ShardMap Nat Nat) (k : Nat) : Option (ShardMap Nat Nat) :=
  (SetM 131072 m k k).map Prod.fst

theorem mapStepR_MR (n : Nat) (hn : n ≤ 65535) :
    mapStepR (MR n) n = some (MR (n + 1)) := by
  unfold mapStepR
  rw [SetM_MR n hn]
  rfl

/-- The whole insert trace: `n` distinct keys `0..n-1`, each a reported
fresh insert, reaching `MR n`. -/
theorem mapTraceR (n : Nat) (hn : n ≤ 65536) :
    (List.range n).foldlM mapStepR (mkMap 16 2097152 hasherR) = some (MR n) := by
  induction n with
  | zero =>
    rw [List.range_zero]
    show some (mkMap 16 2097152 hasherR) = some (MR 0)
    rw [mkMap_eq_MR0]
  | succ n ih =>
    rw [List.range_succ, List.foldlM_append, ih (by omega)]
    show mapStepR (MR n) n >>= (fun b => [].foldlM mapStepR b) = some (MR (n + 1))
    rw [mapStepR_MR n (by omega)]
    rfl

theorem R_length_field (n : Nat) : (R n).length = n := rfl

theorem LenM_MR (n : Nat) : LenM (MR n) = n := by
  unfold LenM
  rw [MR_tables, List.map_cons, List.map_replicate, List.sum_cons, List.sum_replicate]
  rw [R_length_field n, R_length_field 0, smul_eq_mul]
  omega

/-- C3 (refuted — code bug): the Set/Get round trip fails on a reachable
trace. On the map built by `mkMap 16 2097152 hasherR` (16 shards, capacity
hint 2097152, digests `k·2^33` — a legitimate 64-bit hasher), inserting the
65536 pairwise-distinct keys `0..65535` drives one shard's probe sequence to
length `2^16`: the 16-bit displacement of the final entry wraps to 0, so the
entry is stored in a form indistinguishable from an empty slot. The trace
machine-checks: the first conjunct is the whole 65536-insert trace; the
second says `Set(65535, 65535)` itself returns `(default, false)` — a
reported successful fresh insert; the third says the immediately following
`Get(65535)` — no intervening operation on any key — returns
`(default, false)` (*not found*) instead of the claimed `(65535, true)`. -/
theorem C3_set_get_roundtrip_lost :
    (List.range 65536).foldlM mapStepR (mkMap 16 2097152 hasherR) = some (MR 65536) ∧
    SetM 131072 (MR 65535) 65535 65535 = some (MR 65536, (0 : Nat), false) ∧
    GetM 131072 (MR 65536) 65535 = some ((0 : Nat), false) :=
  ⟨mapTraceR 65536 (by omega), SetM_MR 65535 (by omega), GetM_MR65536⟩

/-- C5 (refuted — code bug): the length invariant fails after deletes. On
the same reachable 65536-insert trace (`mkMap 16 2097152 hasherR`, keys
`0..65535`, all distinct), `Len` correctly reports `N = 65536` after the
inserts — but the entry for key `65535` was stored with its 16-bit
displacement wrapped to 0, so deleting that key finds nothing: `Delete`
returns `(default, false)` and leaves the map unchanged, and `Len` still
reports 65536 instead of the claimed `N - M = 65535`. -/
theorem C5_len_after_delete_wrong :
    (List.range 65536).foldlM mapStepR (mkMap 16 2097152 hasherR) = some (MR 65536) ∧
    LenM (MR 65536) = 65536 ∧
    DeleteM 131072 (MR 65536) 65535 = some (MR 65536, (0 : Nat), false) ∧
    (65536 : Nat) ≠ 65536 - 1 :=
  ⟨mapTraceR 65536 (by omega), LenM_MR 65536, DeleteM_MR65536, by omega⟩

end Shardmap
